import Mathlib

/-!
Verification development for the workflow.ai streaming chat pipeline.

The development shallowly embeds the core of the repository:
* the SSE relay (`src/apps/server/src/modules/chat/controller.ts`): payload
  validation, the upstream `pump` loop, and the canned fallback interval;
* the canned reply service (`src/apps/server/src/modules/chat/service.ts`);
* the client-side template extractor (`parseStructuredResponse`), the
  completeness gate (`isFullTemplate`), the chat/template split
  (`templateMatch`) and the draft merge, all from the dashboard page module.

Text is modelled as `List Char` (JS strings after decoding).  JavaScript
regular expressions are translated into equivalent functional programs over
`List Char`; each definition's doc comment records the regex it embeds.
JS whitespace (`\s`, `trim`) is modelled by its ASCII subset, which covers
every character the system produces.
-/

namespace WorkflowAI

abbrev Str := List Char

/-- ASCII model of JavaScript whitespace (the class `\s` and `String.trim`). -/
def isWs (c : Char) : Bool :=
  c = ' ' || c = '\t' || c = '\n' || c = '\r' || c = '\x0b' || c = '\x0c'

/-- Model of `String.prototype.trim`: strip whitespace from both ends. -/
def trimChars (s : Str) : Str :=
  ((s.dropWhile isWs).reverse.dropWhile isWs).reverse

/-- Lower-casing a string character-wise; used to model the regex flag `i`. -/
def lowerStr (s : Str) : Str := s.map Char.toLower

/-- Index of the first occurrence of `pat` as a contiguous substring of
`hay` (starting position of the leftmost match), if any. -/
def firstOccIdx (hay pat : Str) : Option Nat :=
  if pat.isPrefixOf hay then some 0
  else
    match hay with
    | [] => none
    | _ :: t => (firstOccIdx t pat).map (· + 1)

/-- Case-insensitive first-occurrence search (regex flag `i`); positions in
the lowered string coincide with positions in the original because
`Char.toLower` maps one character to one character. -/
def firstOccCI (hay pat : Str) : Option Nat :=
  firstOccIdx (lowerStr hay) (lowerStr pat)

/-- Whether `pat` occurs (case-insensitively) somewhere in `hay`. -/
def occursCI (hay pat : Str) : Bool := (firstOccCI hay pat).isSome

/-- Case-insensitive occurrence search restricted to positions `≥ k`. -/
def firstOccCIFrom (hay pat : Str) (k : Nat) : Option Nat :=
  (firstOccCI (hay.drop k) pat).map (· + k)

/-- Length of the leading whitespace run (what a greedy `\s*` consumes when
the following regex atom cannot match whitespace). -/
def wsPrefixLen (s : Str) : Nat := (s.takeWhile isWs).length

/-- Splitting on a separator character, JavaScript
`String.prototype.split(sep)` style: empty pieces are kept, and the result
is never the empty list. -/
def splitChar (sep : Char) : Str → List Str
  | [] => [[]]
  | c :: rest =>
    if c = sep then [] :: splitChar sep rest
    else
      match splitChar sep rest with
      | [] => [[c]]
      | h :: t => (c :: h) :: t

/-- Inverse of `splitChar`: interleave the separator back. -/
def joinSep (sep : Char) : List Str → Str
  | [] => []
  | [w] => w
  | w :: ws => w ++ sep :: joinSep sep ws

/- ### Template extractor (`parseStructuredResponse` in the dashboard page) -/

def titleMarker : Str := "Title:".data

def descMarker : Str := "Description:".data

def acMarker : Str := "Acceptance Criteria:".data

def stepsMarker : Str := "Steps:".data

/-- Index (in `rest`, the text after a field marker) at which a lazy capture
`(.+?)` stops, for a lookahead offering the given stop markers (or end of
text).  The JS engines' leftmost-lazy semantics reduce to: the capture ends
at the first case-insensitive stop-marker occurrence that lies strictly
beyond the whitespace run following the marker (the capture must hold at
least one character, and whitespace between the capture and the stop marker
is absorbed by the lookahead's `\s*` and by the subsequent `.trim()`);
absent any such occurrence the capture runs to the end of the text. -/
def fieldCut (rest : Str) (stops : List Str) : Nat :=
  let w := wsPrefixLen rest
  (stops.filterMap (fun m => firstOccCIFrom rest m (w + 1))).foldr min rest.length

/-- Value captured for one field, already trimmed.  Embeds
`content.match(/M:\s*(.+?)(?=stops|$)/is)` followed by `.trim()`: the empty
string stands for both "marker absent / no match" and "captured value trims
to empty", which the source code treats identically (`if (title)`). -/
def fieldValue (content marker : Str) (stops : List Str) : Str :=
  match firstOccCI content marker with
  | none => []
  | some p =>
    let rest := content.drop (p + marker.length)
    trimChars (rest.take (fieldCut rest stops))

/-- Capture of the list block: embeds
`content.match(/Marker:\s*(.+?)$/is)` plus `.trim()`.  Unlike `fieldValue`
the no-match case (`marker` absent, or nothing at all after it) must be
distinguished from a captured value that trims to empty, because the source
wraps a trim-empty capture into the one-element list `[""]`. -/
def listCapture (content marker : Str) : Option Str :=
  match firstOccCI content marker with
  | none => none
  | some p =>
    let rest := content.drop (p + marker.length)
    if rest.isEmpty then none else some (trimChars rest)

/-- The `\s*` length chosen by the engine inside one match of
`/\d+\.\s*[^\n]+/`: greedily the whole whitespace run after the dot, backed
off (only when that run reaches the end of the text) to just before the
last non-newline whitespace character so that `[^\n]+` can still consume
one character; `none` when no choice leaves a non-newline character. -/
def numTailStart (after : Str) : Option Nat :=
  let j := wsPrefixLen after
  if j < after.length then some j
  else
    let t := (after.reverse.takeWhile (· = '\n')).length
    if t = after.length then none else some (after.length - t - 1)

/-- Length of a match of `/\d+\.\s*[^\n]+/` anchored at the start of `s`,
if one exists: a nonempty digit run, a dot immediately after it, then the
whitespace and non-newline runs described by `numTailStart`. -/
def numMatchLen (s : Str) : Option Nat :=
  let ds := s.takeWhile Char.isDigit
  if ds.isEmpty then none
  else
    match s.drop ds.length with
    | '.' :: after =>
      match numTailStart after with
      | none => none
      | some k =>
        some (ds.length + 1 + k + ((after.drop k).takeWhile (· ≠ '\n')).length)
    | _ => none

theorem numMatchLen_pos {s : Str} {n : Nat} (h : numMatchLen s = some n) :
    1 ≤ n := by
  simp only [numMatchLen] at h
  split at h
  · exact Option.noConfusion h
  · split at h
    · split at h
      · exact Option.noConfusion h
      · injection h with h
        omega
    · exact Option.noConfusion h

/-- Worker for the global scan of `/\d+\.\s*[^\n]+/g`: the fuel only bounds
the recursion depth (each step consumes at least one character, so
`s.length` fuel is always enough); it exists to keep the definition
structurally recursive. -/
def numberedMatchesGo : Nat → Str → List Str
  | 0, _ => []
  | _, [] => []
  | fuel + 1, c :: rest =>
    match numMatchLen (c :: rest) with
    | some n => (c :: rest).take n :: numberedMatchesGo fuel ((c :: rest).drop n)
    | none => numberedMatchesGo fuel rest

/-- All matches of the global regex `/\d+\.\s*[^\n]+/g`, scanned left to
right, each search resuming after the end of the previous match. -/
def numberedMatches (s : Str) : List Str := numberedMatchesGo s.length s

theorem numberedMatchesGo_nil : ∀ fuel, numberedMatchesGo fuel [] = []
  | 0 => rfl
  | _ + 1 => rfl

theorem numberedMatchesGo_fuel : ∀ (fuel fuel' : Nat) (s : Str),
    s.length ≤ fuel → s.length ≤ fuel' →
    numberedMatchesGo fuel s = numberedMatchesGo fuel' s := by
  intro fuel
  induction fuel with
  | zero =>
    intro fuel' s hs _
    have : s = [] := List.length_eq_zero.mp (Nat.le_zero.mp hs)
    subst this
    rw [numberedMatchesGo_nil, numberedMatchesGo_nil]
  | succ f ih =>
    intro fuel' s hs hs'
    cases s with
    | nil => rw [numberedMatchesGo_nil, numberedMatchesGo_nil]
    | cons c rest =>
      cases fuel' with
      | zero => simp at hs'
      | succ f' =>
        rcases hm : numMatchLen (c :: rest) with _ | n
        · simp only [numberedMatchesGo, hm]
          exact ih f' rest (by simp at hs; omega) (by simp at hs'; omega)
        · simp only [numberedMatchesGo, hm]
          have hn := numMatchLen_pos hm
          rw [ih f' ((c :: rest).drop n) (by simp at hs ⊢; omega)
            (by simp at hs' ⊢; omega)]

theorem numberedMatches_nil : numberedMatches [] = [] := rfl

theorem numberedMatches_cons_some {s : Str} {n : Nat} (hne : s ≠ [])
    (h : numMatchLen s = some n) :
    numberedMatches s = s.take n :: numberedMatches (s.drop n) := by
  cases s with
  | nil => exact absurd rfl hne
  | cons c rest =>
    have hn := numMatchLen_pos h
    show numberedMatchesGo (rest.length + 1) (c :: rest) = _
    simp only [numberedMatchesGo, h]
    rw [numberedMatchesGo_fuel rest.length ((c :: rest).drop n).length
      ((c :: rest).drop n) (by simp; omega) (le_refl _)]
    rfl

theorem numberedMatches_cons_none {c : Char} {rest : Str}
    (h : numMatchLen (c :: rest) = none) :
    numberedMatches (c :: rest) = numberedMatches rest := by
  show numberedMatchesGo (rest.length + 1) (c :: rest) = _
  simp only [numberedMatchesGo, h]
  rfl

/-- The five work-item types of `chatRequestSchema` /
`workItemTemplates`. -/
inductive WorkItemType
  | story
  | feature
  | epic
  | bug
  | issue
deriving DecidableEq

/-- The partial update object assembled by `parseStructuredResponse`:
`updates.title` / `updates.description` / `updates.acceptance`, each key
present (`some`) or absent (`none`). -/
structure Updates where
  title : Option Str
  description : Option Str
  acceptance : Option (List Str)
deriving DecidableEq

/-- The `list` variable of `parseStructuredResponse`: for `story` the block
after `Acceptance Criteria:`, for `issue` the block after `Steps:`, split
into the global numbered matches when any exist, otherwise kept as the
single trimmed line; other types never populate a list. -/
def listField (content : Str) (ty : WorkItemType) : List Str :=
  match ty with
  | .story =>
    match listCapture content acMarker with
    | none => []
    | some t => match numberedMatches t with | [] => [t] | ms => ms
  | .issue =>
    match listCapture content stepsMarker with
    | none => []
    | some t => match numberedMatches t with | [] => [t] | ms => ms
  | _ => []

/-- Embedding of `parseStructuredResponse(content, type)`: extract the
three fields with the regexes modelled above, include each field only when
truthy (nonempty string / nonempty list), and return `null` when no field
is present. -/
def parseStructuredResponse (content : Str) (ty : WorkItemType) : Option Updates :=
  let title := fieldValue content titleMarker [descMarker]
  let description := fieldValue content descMarker [acMarker, stepsMarker]
  let list := listField content ty
  let u : Updates :=
    { title := if title.isEmpty then none else some title
      description := if description.isEmpty then none else some description
      acceptance := if list.isEmpty then none else some list }
  if u.title.isSome || u.description.isSome || u.acceptance.isSome then some u
  else none

/-- The editable draft, shaped like one entry of `workItemTemplates`. -/
structure WorkItem where
  label : Str
  titleLabel : Str
  descriptionLabel : Str
  listLabel : Str
  title : Str
  description : Str
  acceptance : List Str
deriving DecidableEq

/-- Embedding of `setWorkItem((prev) => ({ ...prev, ...parsed }))`: a key
present in the update overwrites the draft field wholly, an absent key
leaves it untouched. -/
def mergeExtraction (w : WorkItem) (u : Updates) : WorkItem :=
  { w with
    title := u.title.getD w.title
    description := u.description.getD w.description
    acceptance := u.acceptance.getD w.acceptance }

/-- The draft after the extractor ran: `if (parsed) setWorkItem(merge)`. -/
def applyExtraction (w : WorkItem) (r : Option Updates) : WorkItem :=
  match r with
  | none => w
  | some u => mergeExtraction w u

/-- Whether `pat` occurs case-insensitively at position `i` of `content`. -/
def ciAt (content pat : Str) (i : Nat) : Bool :=
  (lowerStr pat).isPrefixOf ((lowerStr content).drop i)

/-- Whether position `i` starts `\s*\d+\.`: the (forced maximal) whitespace
run, then a nonempty digit run, then a dot. -/
def numItemAt (content : Str) (i : Nat) : Bool :=
  let after := content.drop i
  let w := wsPrefixLen after
  let ds := (after.drop w).takeWhile Char.isDigit
  !ds.isEmpty && ((after.drop w).drop ds.length).head? == some '.'

/-- Embedding of the readiness gate
`/Title:\s*.+\nDescription:\s*.+((Acceptance Criteria:)|(Steps:))\s*\d+\.\s*/is.test(content)`:
a match exists iff there are positions `a` (a `Title:` occurrence), `b ≥ a+7`
holding a literal newline immediately followed by `Description:` (the `\s*.+`
in between forcing at least one character after the marker), and a list-marker
occurrence `m ≥ b+14` followed by `\s*\d+\.`. -/
def isFullTemplate (content : Str) : Bool :=
  (List.range content.length).any fun a =>
    ciAt content titleMarker a &&
      (List.range content.length).any fun b =>
        decide (a + 7 ≤ b) && ((content.drop b).head? == some '\n') &&
          ciAt content descMarker (b + 1) &&
            (List.range content.length).any fun m =>
              decide (b + 14 ≤ m) &&
                ((ciAt content acMarker m && numItemAt content (m + 20)) ||
                  (ciAt content stepsMarker m && numItemAt content (m + 6)))

/-- Whether `sendMessage`'s `finally` block executes
`setIsWorkItemReady(true)` for a finalized assistant text: the extractor
must have returned a non-null update and the full-template regex must
match. -/
def readySetAfter (content : Str) (ty : WorkItemType) : Bool :=
  (parseStructuredResponse content ty).isSome && isFullTemplate content

/- ### Chat/template split (`templateMatch` in `sendMessage`) -/

/-- Whether one of the four exact-case markers of the (flagless, hence
case-sensitive) split regex starts at position `i`. -/
def splitMarkerAt (content : Str) (i : Nat) : Bool :=
  let t := content.drop i
  titleMarker.isPrefixOf t || descMarker.isPrefixOf t ||
    acMarker.isPrefixOf t || stepsMarker.isPrefixOf t

/-- First alternative `-{2,}\s*\*{0,2}` of the split regex matching at `i`
and followed by a marker: at least two dashes (backtracking forces the full
dash run), the full whitespace run, then zero to two stars. -/
def splitAlt1At (content : Str) (i : Nat) : Bool :=
  let s := content.drop i
  let d := (s.takeWhile (· = '-')).length
  decide (2 ≤ d) &&
    (let s2 := s.drop d
     let w := wsPrefixLen s2
     let stars := ((s2.drop w).takeWhile (· = '*')).length
     (List.range 3).any fun m =>
       decide (m ≤ stars) && splitMarkerAt content (i + d + w + m))

/-- Second alternative `[\n]\s*` of the split regex matching at `i` and
followed by a marker. -/
def splitAlt2At (content : Str) (i : Nat) : Bool :=
  ((content.drop i).head? == some '\n') &&
    splitMarkerAt content (i + 1 + wsPrefixLen (content.drop (i + 1)))

/-- Embedding of
`content.match(/(-{2,}\s*\*{0,2}|[\n]\s*)(Title:|Description:|Acceptance Criteria:|Steps:)/)`:
index of the leftmost match, if any. -/
def templateIdx (content : Str) : Option Nat :=
  (List.range content.length).find? fun i =>
    splitAlt1At content i || splitAlt2At content i

/-- The visible chat bubble text: everything before the template match,
trimmed; the whole text when the split regex does not match. -/
def chatResponseOf (content : Str) : Str :=
  match templateIdx content with
  | some i => trimChars (content.take i)
  | none => content

/- ### SSE relay (`/api/chat/stream` route in the chat controller) -/

/-- Normalized SSE frames written by the relay (payload of one
`data: <json>\n\n` record). -/
inductive Frame
  | delta (s : Str)
  | done
  | error (msg : Str)
deriving DecidableEq

/-- Observable actions on the response: writing a frame, or closing the
connection (`reply.raw.end()`). -/
inductive Event
  | frame (f : Frame)
  | close
deriving DecidableEq

/-- Outcome of `JSON.parse(data)` followed by
`json.choices?.[0]?.delta?.content` on one upstream record payload,
abstracted as an oracle: `parseError` models a thrown `JSON.parse`,
`parsed none` a missing content field, `parsed (some c)` a present string
content. -/
inductive UpstreamParse
  | parseError
  | parsed (content : Option Str)
deriving DecidableEq

/-- How the upstream read loop ends after the given chunks: a final
`{done: true}` read, or `reader.read()` raising.  Both are caught by the
`finally` block of `pump`. -/
inductive ReadEnd
  | eof
  | raise

/-- The relay's `for (const line of lines)` body applied to a list of
complete lines: skip lines not starting (after trim) with `data:`; on the
`[DONE]` sentinel write the `done` frame and stop (`endStream(); return`,
flag `true`); otherwise parse the payload and forward a truthy content as a
`delta` frame. -/
def lineFrames (pf : Str → UpstreamParse) : List Str → List Frame × Bool
  | [] => ([], false)
  | l :: ls =>
    let t := trimChars l
    if ("data:".data).isPrefixOf t then
      let d := trimChars (t.drop 5)
      if d = "[DONE]".data then ([Frame.done], true)
      else
        match pf d with
        | .parsed (some c) =>
          if c.isEmpty then lineFrames pf ls
          else
            let r := lineFrames pf ls
            (Frame.delta c :: r.1, r.2)
        | _ => lineFrames pf ls
    else lineFrames pf ls

/-- The `pump` loop over the decoded upstream chunks: each read appends to
`buffer`, splits on `"\n"`, keeps the trailing partial piece as the new
buffer and processes the complete lines; an early `[DONE]` return closes
the stream (the `finally` re-write being suppressed by `streamClosed`);
when reads end — normally or by raising — the `finally` block writes the
terminal `done` frame and closes. -/
def pumpEvents (pf : Str → UpstreamParse) : Str → List Str → ReadEnd → List Event
  | _, [], .eof => [.frame .done, .close]
  | _, [], .raise => [.frame .done, .close]
  | buffer, chunk :: rest, e =>
    let pieces := splitChar '\n' (buffer ++ chunk)
    let r := lineFrames pf pieces.dropLast
    if r.2 then r.1.map .frame ++ [.close]
    else r.1.map .frame ++ pumpEvents pf (pieces.getLastD []) rest e

/-- Line-level restatement of the pump: process all complete lines of the
whole stream, then terminate.  `pumpEvents` is proved equal to this
composed with line framing. -/
def lineEvents (pf : Str → UpstreamParse) (ls : List Str) : List Event :=
  let r := lineFrames pf ls
  if r.2 then r.1.map .frame ++ [.close]
  else r.1.map .frame ++ [.frame .done, .close]

/-- The complete lines produced by the buffer-split-pop framing over a
whole stream: every piece of the `"\n"`-split except the final partial
one. -/
def linesOf (s : Str) : List Str := (splitChar '\n' s).dropLast

/- ### Canned fallback (`ChatService.generateReply` and the interval) -/

/-- The five canned sentences of `ChatService`. -/
def cannedResponses : List Str :=
  ["Let's pin down success metrics before we push to Jira.".data,
   "I’d add a rollout guardrail. Want me to suggest one?".data,
   "Sounds good. Need any help writing acceptance tests?".data,
   "Consider dependencies with analytics or billing here.".data,
   "Happy to summarize this into a Jira-ready payload.".data]

/-- The enum string of a work-item type. -/
def workItemTypeName : WorkItemType → Str
  | .story => "story".data
  | .feature => "feature".data
  | .epic => "epic".data
  | .bug => "bug".data
  | .issue => "issue".data

/-- Content of `ChatService.generateReply`:
`` `[${workItemType.toUpperCase()}] ${response}` `` with the canned
sentence selected by `Math.floor(Math.random() * 5)`, modelled as the
parameter `r`. -/
def generateReplyContent (ty : WorkItemType) (r : Fin 5) : Str :=
  '[' :: (workItemTypeName ty).map Char.toUpper ++ ']' :: ' ' :: cannedResponses.getD r.val []

/-- State of the fallback interval: the words not yet emitted (the source's
`index` counter, viewed as the remaining suffix of `words`), whether the
next emitted word is the first (`index === 0`), whether the interval is
still registered, and whether the 50ms end-timeout is pending. -/
structure FbState where
  words : List Str
  first : Bool
  intervalOn : Bool
  timerSet : Bool

/-- Events the event loop can deliver to the fallback machinery: an
interval tick, the inbound connection's `close` signal (whose handler runs
`clearInterval`), and the end-timeout firing. -/
inductive FbLabel
  | tick
  | clientClose
  | timerFire

/-- One event-loop step of the fallback path.  A tick with words left
writes one `delta` (`(index === 0 ? "" : " ") + words[index++]`); a tick
with no words left writes `done`, clears the interval and schedules the
end-timeout; the close handler only clears the interval; the end-timeout
runs `reply.raw.end()` once. -/
def fbStep : FbState → FbLabel → FbState × List Event
  | s, .tick =>
    if s.intervalOn then
      match s.words with
      | [] => ({ s with intervalOn := false, timerSet := true }, [.frame .done])
      | w :: ws =>
        ({ s with words := ws, first := false },
          [.frame (.delta (if s.first then w else ' ' :: w))])
    else (s, [])
  | s, .clientClose => ({ s with intervalOn := false }, [])
  | s, .timerFire =>
    if s.timerSet then ({ s with timerSet := false }, [.close]) else (s, [])

/-- Events emitted along a whole sequence of event-loop deliveries. -/
def fbRun : FbState → List FbLabel → List Event
  | _, [] => []
  | s, l :: ls => (fbStep s l).2 ++ fbRun (fbStep s l).1 ls

/-- Initial fallback state for a request: `text.split(" ")` of the canned
reply, `index = 0`, interval registered, no end-timeout yet. -/
def fbInit (ty : WorkItemType) (r : Fin 5) : FbState :=
  ⟨splitChar ' ' (generateReplyContent ty r), true, true, false⟩

/-- The delta frames the fallback emits for a word list: the first word
bare, each following word prefixed with a single space. -/
def wordDeltas : List Str → List Frame
  | [] => []
  | w :: ws => .delta w :: ws.map (fun v => .delta (' ' :: v))

/- ### Request validation and routing -/

/-- JSON values, for modelling the request body handed to
`chatRequestSchema.safeParse`. -/
inductive JsonVal
  | null
  | bool (b : Bool)
  | num (n : Int)
  | str (s : Str)
  | arr (xs : List JsonVal)
  | obj (fields : List (Str × JsonVal))

/-- Object field lookup. -/
def jLookup (fields : List (Str × JsonVal)) (k : Str) : Option JsonVal :=
  (fields.find? (fun kv => kv.1 = k)).map (·.2)

/-- Parsing `z.enum(["story","feature","epic","bug","issue"])`. -/
def parseWorkItemType : JsonVal → Option WorkItemType
  | .str s =>
    if s = "story".data then some .story
    else if s = "feature".data then some .feature
    else if s = "epic".data then some .epic
    else if s = "bug".data then some .bug
    else if s = "issue".data then some .issue
    else none
  | _ => none

/-- Roles accepted by the message schema. -/
inductive Role
  | user
  | assistant
deriving DecidableEq

/-- Parsing `z.enum(["user","assistant"])`. -/
def parseRole : JsonVal → Option Role
  | .str s =>
    if s = "user".data then some .user
    else if s = "assistant".data then some .assistant
    else none
  | _ => none

/-- One validated message of the request payload. -/
structure ChatMessageIn where
  role : Role
  content : Str
  timestamp : Str
deriving DecidableEq

/-- Parsing one element of the `messages` array:
`z.object({ role, content: z.string(), timestamp: z.string() })`
(unknown keys are ignored, as zod does by default). -/
def parseMessage : JsonVal → Option ChatMessageIn
  | .obj fs =>
    match jLookup fs "role".data, jLookup fs "content".data,
        jLookup fs "timestamp".data with
    | some r, some (.str c), some (.str t) => (parseRole r).map (⟨·, c, t⟩)
    | _, _, _ => none
  | _ => none

/-- A validated chat request. -/
structure ChatRequest where
  workItemType : WorkItemType
  messages : List ChatMessageIn
deriving DecidableEq

/-- Embedding of `chatRequestSchema.safeParse`: `none` models a failed
validation. -/
def chatRequestSafeParse : JsonVal → Option ChatRequest
  | .obj fs =>
    match jLookup fs "workItemType".data, jLookup fs "messages".data with
    | some w, some (.arr ms) =>
      match parseWorkItemType w, ms.mapM parseMessage with
      | some ty, some msgs => some ⟨ty, msgs⟩
      | _, _ => none
    | _, _ => none
  | _ => none

/-- The fixed validation-error message of the stream route. -/
def invalidMsg : Str := "Invalid chat payload".data

/-- Result of `streamOpenAIChat` as the controller sees it: `null` when no
API key is configured or the upstream response is not ok, otherwise a
response whose body may be absent.  An available body is the decoded chunk
stream together with how reading it ends. -/
inductive UpstreamOutcome
  | noKey
  | notOk
  | okNoBody
  | ok (chunks : List Str) (e : ReadEnd)

/-- What `(await streamOpenAIChat(...)) || null` yields, paired with the
`openAiRes.body` access of the controller. -/
def streamOpenAIChat : UpstreamOutcome → Option (Option (List Str × ReadEnd))
  | .noKey => none
  | .notOk => none
  | .okNoBody => some none
  | .ok chunks e => some (some (chunks, e))

/-- Which of the three emission behaviours the stream route commits to
after validating the payload and probing the upstream. -/
inductive RoutePlan
  | invalidPayload
  | relay (chunks : List Str) (e : ReadEnd)
  | canned (ty : WorkItemType) (r : Fin 5)

/-- Control flow of the `/api/chat/stream` handler: failed validation
writes the fixed error and terminal frames; an upstream response with a
body is pumped; otherwise the canned fallback runs (`r` standing for
`Math.random`). -/
def chatStreamPlan (body : JsonVal) (up : UpstreamOutcome) (r : Fin 5) : RoutePlan :=
  match chatRequestSafeParse body with
  | none => .invalidPayload
  | some req =>
    match streamOpenAIChat up with
    | some (some (chunks, e)) => .relay chunks e
    | _ => .canned req.workItemType r

/-- The events a route plan produces on the response connection; the relay
plan is driven by the upstream parse oracle `pf`, the canned plan by the
event-loop trace `tr`. -/
def planEvents (pf : Str → UpstreamParse) (tr : List FbLabel) : RoutePlan → List Event
  | .invalidPayload => [.frame (.error invalidMsg), .frame .done, .close]
  | .relay chunks e => pumpEvents pf [] chunks e
  | .canned ty r => fbRun (fbInit ty r) tr

/- ### Claim-side predicates

The following definitions are modelled from the wording of the spec /
claims (not from the source); they exist to compare the claimed behaviour
with the behaviour of the embedded code. -/

/-- Whether a nonempty digit run immediately followed by a dot starts at
position `k` (an `<int>.` item, not necessarily at a line start). -/
def intDotAt (c : Str) (k : Nat) : Bool :=
  let after := c.drop k
  let ds := after.takeWhile Char.isDigit
  !ds.isEmpty && ((after.drop ds.length).head? == some '.')

/-- Claim-side: position `k` starts a numbered line, i.e. it is a line
start carrying an `<int>.` item. -/
def numberedLineAt (c : Str) (k : Nat) : Bool :=
  (decide (k = 0) || (c.getD (k - 1) ' ' == '\n')) && intDotAt c k

/-- Claim-side (from C2's wording): the text contains `Title:` followed
eventually by `Description:` followed eventually by `Acceptance Criteria:`
or `Steps:` followed by at least one numbered line; all markers
case-insensitive. -/
def specCompleteTemplate (c : Str) : Bool :=
  (List.range c.length).any fun a =>
    ciAt c titleMarker a &&
      (List.range c.length).any fun d =>
        decide (a + 6 ≤ d) && ciAt c descMarker d &&
          (List.range c.length).any fun m =>
            decide (d + 12 ≤ m) &&
              ((ciAt c acMarker m &&
                  (List.range c.length).any fun k =>
                    decide (m + 20 ≤ k) && numberedLineAt c k) ||
                (ciAt c stepsMarker m &&
                  (List.range c.length).any fun k =>
                    decide (m + 6 ≤ k) && numberedLineAt c k))

/-- Amended claim-side condition: like `specCompleteTemplate` but with the
numbered item allowed anywhere after the list marker (not only at a line
start), which is the reading the code's gate actually implies. -/
def specTemplateMarkersInOrder (c : Str) : Bool :=
  (List.range c.length).any fun a =>
    ciAt c titleMarker a &&
      (List.range c.length).any fun d =>
        decide (a + 6 ≤ d) && ciAt c descMarker d &&
          (List.range c.length).any fun m =>
            decide (d + 12 ≤ m) &&
              ((ciAt c acMarker m &&
                  (List.range c.length).any fun k =>
                    decide (m + 20 ≤ k) && intDotAt c k) ||
                (ciAt c stepsMarker m &&
                  (List.range c.length).any fun k =>
                    decide (m + 6 ≤ k) && intDotAt c k))

/-- Claim-side (from C7's wording): a line of the form `<int>. ...`. -/
def specNumberedLine (l : Str) : Bool := intDotAt l 0

/- ### Lemmas about `splitChar` and `joinSep` -/

/-- Prepend a string onto the first piece of a piece list. -/
def consHead (pre : Str) : List Str → List Str
  | [] => [pre]
  | h :: t => (pre ++ h) :: t

theorem splitChar_ne_nil (sep : Char) (s : Str) : splitChar sep s ≠ [] := by
  cases s with
  | nil => simp [splitChar]
  | cons c rest =>
    simp only [splitChar]
    split
    · simp
    · split <;> simp

theorem consHead_id {l : List Str} (h : l ≠ []) : consHead [] l = l := by
  cases l with
  | nil => exact absurd rfl h
  | cons x t => simp [consHead]

theorem getLastD_irrel {α : Type} {l : List α} (h : l ≠ []) (d₁ d₂ : α) :
    l.getLastD d₁ = l.getLastD d₂ := by
  cases l with
  | nil => exact absurd rfl h
  | cons x t => rw [List.getLastD_cons d₁ x t, List.getLastD_cons d₂ x t]

theorem splitChar_cons_sep (sep : Char) (s : Str) :
    splitChar sep (sep :: s) = [] :: splitChar sep s := by
  simp [splitChar]

theorem splitChar_cons_not {sep c : Char} (hc : ¬c = sep) (s : Str) :
    splitChar sep (c :: s) = consHead [c] (splitChar sep s) := by
  simp only [splitChar, hc, if_false]
  rcases hsp : splitChar sep s with _ | ⟨h, t⟩
  · exact absurd hsp (splitChar_ne_nil sep s)
  · simp [consHead]

theorem not_mem_splitChar {sep : Char} {s p : Str} (hp : p ∈ splitChar sep s) :
    sep ∉ p := by
  induction s generalizing p with
  | nil =>
    simp only [splitChar, List.mem_singleton] at hp
    subst hp
    simp
  | cons c rest ih =>
    simp only [splitChar] at hp
    by_cases hc : c = sep
    · simp only [hc, if_true, List.mem_cons] at hp
      rcases hp with hp | hp
      · simp [hp]
      · exact ih hp
    · simp only [hc, if_false] at hp
      rcases hsp : splitChar sep rest with _ | ⟨h, t⟩
      · exact absurd hsp (splitChar_ne_nil sep rest)
      · rw [hsp] at hp
        rcases List.mem_cons.mp hp with hp | hp
        · subst hp
          intro hm
          rcases List.mem_cons.mp hm with hm | hm
          · exact hc hm.symm
          · exact ih (hsp ▸ List.mem_cons_self h t) hm
        · exact ih (hsp ▸ List.mem_cons_of_mem h hp)

theorem splitChar_eq_single {sep : Char} {s : Str} (h : sep ∉ s) :
    splitChar sep s = [s] := by
  induction s with
  | nil => simp [splitChar]
  | cons c rest ih =>
    have hc : ¬c = sep := fun he => h (he ▸ List.mem_cons_self c rest)
    have hr : sep ∉ rest := fun hm => h (List.mem_cons_of_mem c hm)
    simp only [splitChar, hc, if_false, ih hr]

theorem splitChar_append (sep : Char) (a b : Str) :
    splitChar sep (a ++ b) =
      (splitChar sep a).dropLast ++
        consHead ((splitChar sep a).getLastD []) (splitChar sep b) := by
  induction a with
  | nil =>
    simp only [List.nil_append, splitChar, List.dropLast_single, List.getLastD]
    exact (consHead_id (splitChar_ne_nil sep b)).symm
  | cons c a ih =>
    by_cases hc : c = sep
    · subst hc
      rw [List.cons_append, splitChar_cons_sep, splitChar_cons_sep, ih,
        List.dropLast_cons_of_ne_nil (splitChar_ne_nil c a), List.getLastD_cons,
        List.cons_append]
    · rw [List.cons_append, splitChar_cons_not hc, splitChar_cons_not hc, ih]
      rcases hsa : splitChar sep a with _ | ⟨h, t⟩
      · exact absurd hsa (splitChar_ne_nil sep a)
      · cases t with
        | nil =>
          rcases hsb : splitChar sep b with _ | ⟨hb, tb⟩
          · exact absurd hsb (splitChar_ne_nil sep b)
          · simp [consHead, List.getLastD]
        | cons x u =>
          have hxu : (x :: u : List Str) ≠ [] := by simp
          simp only [consHead, List.cons_append, List.getLastD_cons,
            List.dropLast_cons_of_ne_nil hxu, List.nil_append]

theorem joinSep_splitChar (sep : Char) (s : Str) :
    joinSep sep (splitChar sep s) = s := by
  induction s with
  | nil => simp [splitChar, joinSep]
  | cons c rest ih =>
    by_cases hc : c = sep
    · subst hc
      simp only [splitChar, if_true]
      rcases hsp : splitChar c rest with _ | ⟨h, t⟩
      · exact absurd hsp (splitChar_ne_nil c rest)
      · rw [hsp] at ih
        simp [joinSep, ih]
    · simp only [splitChar, hc, if_false]
      rcases hsp : splitChar sep rest with _ | ⟨h, t⟩
      · exact absurd hsp (splitChar_ne_nil sep rest)
      · rw [hsp] at ih
        cases t with
        | nil =>
          simp only [joinSep] at ih ⊢
          rw [ih]
        | cons y u =>
          simp only [joinSep] at ih ⊢
          rw [List.cons_append, ih]

theorem getLastD_mem {α : Type} {l : List α} (h : l ≠ []) (d : α) :
    l.getLastD d ∈ l := by
  induction l generalizing d with
  | nil => exact absurd rfl h
  | cons x t ih =>
    rw [List.getLastD_cons]
    cases t with
    | nil => simp [List.getLastD]
    | cons y u => exact List.mem_cons_of_mem x (ih (by simp) x)

/- ### Lemmas about the pump -/

theorem lineFrames_append (pf : Str → UpstreamParse) (xs ys : List Str) :
    lineFrames pf (xs ++ ys) =
      if (lineFrames pf xs).2 then lineFrames pf xs
      else ((lineFrames pf xs).1 ++ (lineFrames pf ys).1, (lineFrames pf ys).2) := by
  induction xs with
  | nil => simp [lineFrames]
  | cons l ls ih =>
    simp only [List.cons_append, lineFrames]
    by_cases hpre : ("data:".data).isPrefixOf (trimChars l)
    · simp only [hpre, if_true]
      by_cases hdone : trimChars ((trimChars l).drop 5) = "[DONE]".data
      · simp [hdone]
      · simp only [hdone, if_false]
        rcases hp : pf (trimChars ((trimChars l).drop 5)) with _ | ⟨_ | c⟩
        · exact ih
        · exact ih
        · by_cases hce : c.isEmpty
          · simp only [hce, if_true]
            exact ih
          · simp only [hce, if_false, List.append_eq]
            rw [ih]
            by_cases hr : (lineFrames pf ls).2 <;> simp [hr]
    · simp only [hpre, if_false]
      exact ih

theorem lineFrames_shape_false {pf : Str → UpstreamParse} {ls : List Str}
    (h : (lineFrames pf ls).2 = false) :
    ∃ ds : List Str, (lineFrames pf ls).1 = ds.map Frame.delta := by
  induction ls with
  | nil => exact ⟨[], rfl⟩
  | cons l ls ih =>
    simp only [lineFrames] at h ⊢
    by_cases hpre : ("data:".data).isPrefixOf (trimChars l)
    · simp only [hpre, if_true] at h ⊢
      by_cases hdone : trimChars ((trimChars l).drop 5) = "[DONE]".data
      · simp [hdone] at h
      · simp only [hdone, if_false] at h ⊢
        rcases hp : pf (trimChars ((trimChars l).drop 5)) with _ | ⟨_ | c⟩ <;>
          rw [hp] at h
        · exact ih h
        · exact ih h
        · by_cases hce : c.isEmpty
          · simp only [hce, if_true] at h ⊢
            exact ih h
          · simp only [hce, if_false] at h ⊢
            obtain ⟨ds, hds⟩ := ih h
            exact ⟨c :: ds, by simp [hds]⟩
    · simp only [hpre, if_false] at h ⊢
      exact ih h

theorem lineFrames_shape_true {pf : Str → UpstreamParse} {ls : List Str}
    (h : (lineFrames pf ls).2 = true) :
    ∃ ds : List Str, (lineFrames pf ls).1 = ds.map Frame.delta ++ [Frame.done] := by
  induction ls with
  | nil => simp [lineFrames] at h
  | cons l ls ih =>
    simp only [lineFrames] at h ⊢
    by_cases hpre : ("data:".data).isPrefixOf (trimChars l)
    · simp only [hpre, if_true] at h ⊢
      by_cases hdone : trimChars ((trimChars l).drop 5) = "[DONE]".data
      · simp only [hdone, if_true]
        exact ⟨[], rfl⟩
      · simp only [hdone, if_false] at h ⊢
        rcases hp : pf (trimChars ((trimChars l).drop 5)) with _ | ⟨_ | c⟩ <;>
          rw [hp] at h
        · exact ih h
        · exact ih h
        · by_cases hce : c.isEmpty
          · simp only [hce, if_true] at h ⊢
            exact ih h
          · simp only [hce, if_false] at h ⊢
            obtain ⟨ds, hds⟩ := ih h
            exact ⟨c :: ds, by simp [hds]⟩
    · simp only [hpre, if_false] at h ⊢
      exact ih h

theorem pumpEvents_eq_lineEvents (pf : Str → UpstreamParse) (buf : Str)
    (chunks : List Str) (e : ReadEnd) (hbuf : '\n' ∉ buf) :
    pumpEvents pf buf chunks e = lineEvents pf (linesOf (buf ++ chunks.flatten)) := by
  induction chunks generalizing buf with
  | nil =>
    have hsingle : splitChar '\n' buf = [buf] := splitChar_eq_single hbuf
    cases e <;>
      simp [pumpEvents, lineEvents, lineFrames, linesOf, hsingle]
  | cons ch rest ih =>
    have hassoc : buf ++ (ch :: rest).flatten = (buf ++ ch) ++ rest.flatten := by
      simp [List.flatten_cons, List.append_assoc]
    rw [hassoc]
    have hlast := getLastD_mem (splitChar_ne_nil '\n' (buf ++ ch)) ([] : Str)
    have hlastnl : '\n' ∉ (splitChar '\n' (buf ++ ch)).getLastD [] :=
      not_mem_splitChar hlast
    have hsplit : splitChar '\n' ((buf ++ ch) ++ rest.flatten) =
        (splitChar '\n' (buf ++ ch)).dropLast ++
          splitChar '\n' ((splitChar '\n' (buf ++ ch)).getLastD [] ++ rest.flatten) := by
      rw [splitChar_append '\n' (buf ++ ch) rest.flatten]
      congr 1
      rw [splitChar_append '\n' _ rest.flatten, splitChar_eq_single hlastnl]
      simp [List.getLastD, consHead_id (splitChar_ne_nil '\n' rest.flatten)]
    have hlines : linesOf ((buf ++ ch) ++ rest.flatten) =
        (splitChar '\n' (buf ++ ch)).dropLast ++
          linesOf ((splitChar '\n' (buf ++ ch)).getLastD [] ++ rest.flatten) := by
      rw [linesOf, hsplit, List.dropLast_append]
      have : (splitChar '\n' ((splitChar '\n' (buf ++ ch)).getLastD [] ++
          rest.flatten)).isEmpty = false := by
        rcases hsp : splitChar '\n' ((splitChar '\n' (buf ++ ch)).getLastD [] ++
            rest.flatten) with _ | ⟨x, t⟩
        · exact absurd hsp (splitChar_ne_nil _ _)
        · simp
      rw [this]
      rfl
    rw [hlines, lineEvents, lineFrames_append]
    by_cases hr : (lineFrames pf (splitChar '\n' (buf ++ ch)).dropLast).2
    · simp only [hr, if_true, pumpEvents]
    · simp only [hr, if_false, Bool.false_eq_true, pumpEvents]
      rw [ih _ hlastnl, lineEvents]
      by_cases hr2 :
          (lineFrames pf
            (linesOf ((splitChar '\n' (buf ++ ch)).getLastD [] ++ rest.flatten))).2 <;>
        simp only [hr2, if_true, if_false, Bool.false_eq_true] <;>
          simp [List.map_append, List.append_assoc]

theorem pump_shape (pf : Str → UpstreamParse) (buf : Str) (chunks : List Str)
    (e : ReadEnd) :
    ∃ ds : List Str, pumpEvents pf buf chunks e =
      ds.map (fun d => Event.frame (Frame.delta d)) ++
        [Event.frame Frame.done, Event.close] := by
  induction chunks generalizing buf with
  | nil => cases e <;> exact ⟨[], rfl⟩
  | cons ch rest ih =>
    simp only [pumpEvents]
    by_cases hr : (lineFrames pf (splitChar '\n' (buf ++ ch)).dropLast).2
    · obtain ⟨ds, hds⟩ := lineFrames_shape_true hr
      refine ⟨ds, ?_⟩
      simp [hr, hds]
    · obtain ⟨ds, hds⟩ := lineFrames_shape_false (by simpa using hr)
      obtain ⟨ds2, hds2⟩ := ih ((splitChar '\n' (buf ++ ch)).getLastD [])
      refine ⟨ds ++ ds2, ?_⟩
      simp only [hr, if_false, Bool.false_eq_true]
      rw [hds2, hds]
      simp [List.map_append, List.map_map, List.append_assoc, Function.comp]

/- ### Lemmas about the fallback interval machine -/

/-- Delta frames emitted from an intermediate interval state: the flag says
whether `index` is still `0`. -/
def wordDeltasFrom : Bool → List Str → List Frame
  | _, [] => []
  | first, w :: ws => .delta (if first then w else ' ' :: w) :: wordDeltasFrom false ws

theorem wordDeltasFrom_false (ws : List Str) :
    wordDeltasFrom false ws = ws.map (fun v => Frame.delta (' ' :: v)) := by
  induction ws with
  | nil => rfl
  | cons w ws ih => simp [wordDeltasFrom, ih]

theorem wordDeltasFrom_true (ws : List Str) :
    wordDeltasFrom true ws = wordDeltas ws := by
  cases ws with
  | nil => rfl
  | cons w ws => simp [wordDeltasFrom, wordDeltas, wordDeltasFrom_false]

theorem fbRun_none : ∀ (tr : List FbLabel) (s : FbState),
    s.intervalOn = false → s.timerSet = false → fbRun s tr = [] := by
  intro tr
  induction tr with
  | nil => intro s _ _; rfl
  | cons l ls ih =>
    intro s h1 h2
    cases l with
    | tick =>
      simp only [fbRun, fbStep, h1, Bool.false_eq_true, if_false, List.nil_append]
      exact ih s h1 h2
    | clientClose =>
      simp only [fbRun, fbStep, List.nil_append]
      exact ih { s with intervalOn := false } rfl h2
    | timerFire =>
      simp only [fbRun, fbStep, h2, Bool.false_eq_true, if_false, List.nil_append]
      exact ih s h1 h2

theorem fbRun_pending : ∀ (tr : List FbLabel) (s : FbState),
    s.intervalOn = false → s.timerSet = true →
    fbRun s tr = [] ∨ fbRun s tr = [Event.close] := by
  intro tr
  induction tr with
  | nil => intro s _ _; exact Or.inl rfl
  | cons l ls ih =>
    intro s h1 h2
    cases l with
    | tick =>
      simp only [fbRun, fbStep, h1, Bool.false_eq_true, if_false, List.nil_append]
      exact ih s h1 h2
    | clientClose =>
      simp only [fbRun, fbStep, List.nil_append]
      exact ih { s with intervalOn := false } rfl h2
    | timerFire =>
      simp only [fbRun, fbStep, h2, if_true]
      rw [fbRun_none ls { s with timerSet := false } h1 rfl]
      exact Or.inr rfl

theorem fbRun_active : ∀ (tr : List FbLabel) (s : FbState),
    s.intervalOn = true → s.timerSet = false →
    ∃ (ds : List Str) (tl : List Event),
      fbRun s tr = ds.map (fun d => Event.frame (Frame.delta d)) ++ tl ∧
        (tl = [] ∨ tl = [Event.frame Frame.done] ∨
          tl = [Event.frame Frame.done, Event.close]) := by
  intro tr
  induction tr with
  | nil => intro s _ _; exact ⟨[], [], rfl, Or.inl rfl⟩
  | cons l ls ih =>
    rintro ⟨ws0, f0, io, ts⟩ h1 h2
    simp only at h1 h2
    subst h1
    subst h2
    cases l with
    | tick =>
      rcases ws0 with _ | ⟨w, ws⟩
      · simp only [fbRun, fbStep, if_true]
        rcases fbRun_pending ls ⟨[], f0, false, true⟩ rfl rfl with hls | hls <;>
          rw [hls]
        · exact ⟨[], [Event.frame Frame.done], rfl, Or.inr (Or.inl rfl)⟩
        · exact ⟨[], [Event.frame Frame.done, Event.close], rfl,
            Or.inr (Or.inr rfl)⟩
      · simp only [fbRun, fbStep, if_true]
        obtain ⟨ds, tl, heq, htl⟩ := ih ⟨ws, false, true, false⟩ rfl rfl
        refine ⟨(if f0 then w else ' ' :: w) :: ds, tl, ?_, htl⟩
        simp [heq]
    | clientClose =>
      simp only [fbRun, fbStep, List.nil_append]
      rw [fbRun_none ls ⟨ws0, f0, false, false⟩ rfl rfl]
      exact ⟨[], [], rfl, Or.inl rfl⟩
    | timerFire =>
      simp only [fbRun, fbStep, Bool.false_eq_true, if_false, List.nil_append]
      exact ih ⟨ws0, f0, true, false⟩ rfl rfl

theorem fbRun_cons (s : FbState) (l : FbLabel) (ls : List FbLabel) :
    fbRun s (l :: ls) = (fbStep s l).2 ++ fbRun (fbStep s l).1 ls := rfl

theorem fbRun_ticks : ∀ (ws : List Str) (first : Bool) (rest : List FbLabel),
    ∃ b, fbRun ⟨ws, first, true, false⟩
        (List.replicate (ws.length + 1) FbLabel.tick ++ rest) =
      (wordDeltasFrom first ws).map Event.frame ++
        Event.frame Frame.done :: fbRun ⟨[], b, false, true⟩ rest := by
  intro ws
  induction ws with
  | nil =>
    intro first rest
    exact ⟨first, by simp [fbRun, fbStep, wordDeltasFrom]⟩
  | cons w ws ih =>
    intro first rest
    obtain ⟨b, hb⟩ := ih false rest
    refine ⟨b, ?_⟩
    have hrep : List.replicate ((w :: ws).length + 1) FbLabel.tick =
        FbLabel.tick :: List.replicate (ws.length + 1) FbLabel.tick := by
      simp [List.replicate]
    rw [hrep, List.cons_append, fbRun_cons]
    have hstep : fbStep ⟨w :: ws, first, true, false⟩ FbLabel.tick =
        (⟨ws, false, true, false⟩,
          [Event.frame (Frame.delta (if first then w else ' ' :: w))]) := rfl
    rw [hstep]
    simp only [hb, wordDeltasFrom, List.map_cons, List.cons_append,
      List.singleton_append, List.append_assoc, List.nil_append]

/-- Concatenation of the payloads of the delta frames in a list. -/
def deltasConcat : List Frame → Str
  | [] => []
  | .delta s :: fs => s ++ deltasConcat fs
  | _ :: fs => deltasConcat fs

theorem deltasConcat_cons_delta (s : Str) (fs : List Frame) :
    deltasConcat (Frame.delta s :: fs) = s ++ deltasConcat fs := rfl

theorem deltasConcat_map_space (v : Str) (t : List Str) :
    deltasConcat ((v :: t).map (fun x => Frame.delta (' ' :: x))) =
      ' ' :: joinSep ' ' (v :: t) := by
  induction t generalizing v with
  | nil => simp [deltasConcat, joinSep]
  | cons y u ih =>
    rw [List.map_cons, deltasConcat_cons_delta, ih y]
    simp [joinSep, List.cons_append]

theorem deltasConcat_wordDeltas (ws : List Str) :
    deltasConcat (wordDeltas ws) = joinSep ' ' ws := by
  cases ws with
  | nil => rfl
  | cons w t =>
    cases t with
    | nil => simp [wordDeltas, deltasConcat, joinSep]
    | cons v u =>
      rw [show wordDeltas (w :: v :: u) =
          Frame.delta w :: (v :: u).map (fun x => Frame.delta (' ' :: x)) from rfl,
        deltasConcat_cons_delta, deltasConcat_map_space]
      simp [joinSep]


/- ### Lemmas about occurrence search and trimming -/

theorem firstOccIdx_isSome {hay pat : Str} {i : Nat}
    (h : pat.isPrefixOf (hay.drop i) = true) :
    (firstOccIdx hay pat).isSome = true := by
  induction hay generalizing i with
  | nil =>
    simp only [List.drop_nil] at h
    simp [firstOccIdx, h]
  | cons c t ih =>
    cases i with
    | zero =>
      simp only [List.drop_zero] at h
      simp [firstOccIdx, h]
    | succ n =>
      simp only [List.drop_succ_cons] at h
      simp only [firstOccIdx]
      split
      · simp
      · simpa using ih h

theorem occursCI_of_ciAt {c pat : Str} {i : Nat} (h : ciAt c pat i = true) :
    occursCI c pat = true := by
  unfold ciAt at h
  unfold occursCI firstOccCI
  exact firstOccIdx_isSome h

theorem ciAt_lt {c pat : Str} {i : Nat} (hpat : pat ≠ []) (h : ciAt c pat i = true) :
    i < c.length := by
  unfold ciAt at h
  rw [List.isPrefixOf_iff_prefix] at h
  have hlen := h.length_le
  have hp : 0 < pat.length := List.length_pos.mpr hpat
  simp only [lowerStr, List.length_map, List.length_drop] at hlen
  omega

theorem drop_append_of_le {a s : Str} {k : Nat} (h : a.length ≤ k) :
    (a ++ s).drop k = s.drop (k - a.length) := by
  conv_lhs => rw [show k = a.length + (k - a.length) from by omega]
  rw [List.drop_append]

theorem lowerStr_append (a b : Str) :
    lowerStr (a ++ b) = lowerStr a ++ lowerStr b := by
  simp [lowerStr]

theorem dropWhile_eq_self_of_head {p : Char → Bool} {l : Str}
    (h : ∀ c, l.head? = some c → p c = false) : l.dropWhile p = l := by
  cases l with
  | nil => rfl
  | cons c t =>
    rw [List.dropWhile_cons, if_neg]
    simp [h c rfl]

theorem trimChars_eq_self {s : Str}
    (hh : ∀ c, s.head? = some c → isWs c = false)
    (hl : ∀ c, s.getLast? = some c → isWs c = false) : trimChars s = s := by
  unfold trimChars
  rw [dropWhile_eq_self_of_head hh]
  rw [dropWhile_eq_self_of_head (by simpa [List.head?_reverse] using hl),
    List.reverse_reverse]

theorem trimChars_cons_ws {ch : Char} {s : Str} (h : isWs ch = true) :
    trimChars (ch :: s) = trimChars s := by
  unfold trimChars
  rw [List.dropWhile_cons, if_pos h]

theorem mem_of_mem_trimChars {x : Char} {s : Str} (h : x ∈ trimChars s) : x ∈ s := by
  unfold trimChars at h
  rw [List.mem_reverse] at h
  have h1 := (@List.dropWhile_sublist Char (List.dropWhile isWs s).reverse
    isWs).subset h
  rw [List.mem_reverse] at h1
  exact (@List.dropWhile_sublist Char s isWs).subset h1

/- ### Case-insensitivity of the extractor -/

theorem fieldValue_lower_inv {v w : Str} (hvw : lowerStr v = lowerStr w)
    (s m : Str) (hm : v.length ≤ m.length) (stops : List Str) :
    fieldValue (v ++ s) m stops = fieldValue (w ++ s) m stops := by
  have hlen : v.length = w.length := by
    have := congrArg List.length hvw
    simpa [lowerStr] using this
  unfold fieldValue firstOccCI
  rw [show lowerStr (v ++ s) = lowerStr (w ++ s) by
    rw [lowerStr_append, lowerStr_append, hvw]]
  rcases hocc : firstOccIdx (lowerStr (w ++ s)) (lowerStr m) with _ | p
  · rfl
  · have h1 : (v ++ s).drop (p + m.length) = s.drop (p + m.length - v.length) :=
      drop_append_of_le (by omega)
    have h2 : (w ++ s).drop (p + m.length) = s.drop (p + m.length - w.length) :=
      drop_append_of_le (by omega)
    simp only [h1, h2, hlen]

theorem listCapture_lower_inv {v w : Str} (hvw : lowerStr v = lowerStr w)
    (s m : Str) (hm : v.length ≤ m.length) :
    listCapture (v ++ s) m = listCapture (w ++ s) m := by
  have hlen : v.length = w.length := by
    have := congrArg List.length hvw
    simpa [lowerStr] using this
  unfold listCapture firstOccCI
  rw [show lowerStr (v ++ s) = lowerStr (w ++ s) by
    rw [lowerStr_append, lowerStr_append, hvw]]
  rcases hocc : firstOccIdx (lowerStr (w ++ s)) (lowerStr m) with _ | p
  · rfl
  · have h1 : (v ++ s).drop (p + m.length) = s.drop (p + m.length - v.length) :=
      drop_append_of_le (by omega)
    have h2 : (w ++ s).drop (p + m.length) = s.drop (p + m.length - w.length) :=
      drop_append_of_le (by omega)
    simp only [h1, h2, hlen]

theorem parse_title_case_inv {v : Str} (hv : lowerStr v = lowerStr titleMarker)
    (s : Str) (ty : WorkItemType) :
    parseStructuredResponse (v ++ s) ty =
      parseStructuredResponse (titleMarker ++ s) ty := by
  have hvlen : v.length = 6 := by
    have := congrArg List.length hv
    simpa [lowerStr, titleMarker] using this
  have h1 := fieldValue_lower_inv hv s titleMarker (by simp [hvlen, titleMarker])
    [descMarker]
  have h2 := fieldValue_lower_inv hv s descMarker (by simp [hvlen, descMarker])
    [acMarker, stepsMarker]
  have h3 : listField (v ++ s) ty = listField (titleMarker ++ s) ty := by
    cases ty <;>
      simp [listField,
        listCapture_lower_inv hv s acMarker (by simp [hvlen, acMarker]),
        listCapture_lower_inv hv s stepsMarker (by simp [hvlen, stepsMarker])]
  unfold parseStructuredResponse
  rw [h1, h2, h3]

/- ### Lemmas about absent markers -/

theorem fieldValue_of_not_occurs {c m : Str} (h : occursCI c m = false)
    (stops : List Str) : fieldValue c m stops = [] := by
  unfold fieldValue
  unfold occursCI at h
  rcases hocc : firstOccCI c m with _ | p
  · rfl
  · rw [hocc] at h
    simp at h

theorem listCapture_of_not_occurs {c m : Str} (h : occursCI c m = false) :
    listCapture c m = none := by
  unfold listCapture
  unfold occursCI at h
  rcases hocc : firstOccCI c m with _ | p
  · rfl
  · rw [hocc] at h
    simp at h

theorem listField_of_not_occurs {c : Str} (ty : WorkItemType)
    (hac : occursCI c acMarker = false) (hst : occursCI c stepsMarker = false) :
    listField c ty = [] := by
  cases ty <;>
    simp [listField, listCapture_of_not_occurs hac, listCapture_of_not_occurs hst]

/- ### A failing element makes `mapM` fail -/

theorem mapM_eq_none {α β : Type} {f : α → Option β} {xs : List α} {x : α}
    (hx : x ∈ xs) (hf : f x = none) : xs.mapM f = none := by
  induction xs with
  | nil => cases hx
  | cons y ys ih =>
    rw [List.mapM_cons]
    rcases List.mem_cons.mp hx with h | h
    · subst h
      rw [hf]
      rfl
    · rcases hy : f y with _ | v
      · rfl
      · simp only [Option.bind_eq_bind, Option.some_bind, ih h]
        rfl

/- ### Lemmas about the numbered-item matcher -/

theorem takeWhile_append_all {p : Char → Bool} {a : Str} (b : Str)
    (ha : ∀ x ∈ a, p x = true) :
    (a ++ b).takeWhile p = a ++ b.takeWhile p := by
  induction a with
  | nil => rfl
  | cons x t ih =>
    rw [List.cons_append, List.takeWhile_cons, if_pos (ha x (List.mem_cons_self x t))]
    rw [ih (fun y hy => ha y (List.mem_cons_of_mem x hy))]
    rfl

theorem takeWhile_eq_self_of_all {p : Char → Bool} {l : Str}
    (h : ∀ x ∈ l, p x = true) : l.takeWhile p = l :=
  List.takeWhile_eq_self_iff.mpr h

theorem takeWhile_append_of_ne_self {p : Char → Bool} {a : Str} (b : Str)
    (h : a.takeWhile p ≠ a) : (a ++ b).takeWhile p = a.takeWhile p := by
  induction a with
  | nil => exact absurd rfl h
  | cons x t ih =>
    by_cases hx : p x
    · have ht : t.takeWhile p ≠ t := by
        intro he
        exact h (by rw [List.takeWhile_cons, if_pos hx, he])
      rw [List.cons_append, List.takeWhile_cons, if_pos hx, List.takeWhile_cons,
        if_pos hx, ih ht]
    · rw [List.cons_append, List.takeWhile_cons, if_neg hx, List.takeWhile_cons,
        if_neg hx]

theorem isWs_false_of_digit {c : Char} (h : c.isDigit = true) : isWs c = false := by
  rcases hc : isWs c
  · rfl
  · exfalso
    unfold isWs at hc
    simp only [Bool.or_eq_true, decide_eq_true_eq] at hc
    rcases hc with ((((h1 | h1) | h1) | h1) | h1) | h1 <;>
      (subst h1; exact absurd h (by decide))

theorem takeWhile_ws_ne_self {c : Str} (hne : c ≠ [])
    (hlast : isWs (c.getLastD ' ') = false) : c.takeWhile isWs ≠ c := by
  intro he
  have hall := List.takeWhile_eq_self_iff.mp he
  have := hall _ (getLastD_mem hne ' ')
  rw [hlast] at this
  exact Bool.noConfusion this

theorem wsPrefixLen_lt {c : Str} (hne : c ≠ [])
    (hlast : isWs (c.getLastD ' ') = false) : wsPrefixLen c < c.length := by
  unfold wsPrefixLen
  have hne2 := takeWhile_ws_ne_self hne hlast
  have hle : (c.takeWhile isWs).length ≤ c.length :=
    (List.takeWhile_sublist isWs).length_le
  rcases Nat.lt_or_ge (c.takeWhile isWs).length c.length with h | h
  · exact h
  · exfalso
    have : (c.takeWhile isWs).length = c.length := le_antisymm hle h
    exact hne2 ((List.takeWhile_sublist isWs).eq_of_length this)

theorem numMatchLen_render {d c tail' : Str} (hd : d ≠ [])
    (hdig : ∀ ch ∈ d, ch.isDigit = true) (hc : '\n' ∉ c)
    (hlast : isWs (c.getLastD ' ') = false)
    (htail : tail' = [] ∨ ∃ z, tail' = '\n' :: z) :
    numMatchLen (d ++ '.' :: ' ' :: (c ++ tail')) = some (d.length + 2 + c.length) := by
  have hcne : c ≠ [] := by
    intro he
    rw [he] at hlast
    exact Bool.noConfusion hlast
  have hwsc := wsPrefixLen_lt hcne hlast
  have hds : (d ++ '.' :: ' ' :: (c ++ tail')).takeWhile Char.isDigit = d := by
    rw [takeWhile_append_all _ hdig, List.takeWhile_cons]
    simp
  have hdsne : d.isEmpty = false := List.isEmpty_eq_false.mpr hd
  have hdrop : (d ++ '.' :: ' ' :: (c ++ tail')).drop d.length =
      '.' :: ' ' :: (c ++ tail') := List.drop_left d _
  have hwsct : (c ++ tail').takeWhile isWs = c.takeWhile isWs := by
    rcases htail with h | ⟨z, h⟩
    · rw [h, List.append_nil]
    · exact takeWhile_append_of_ne_self _ (takeWhile_ws_ne_self hcne hlast)
  have hws : wsPrefixLen (' ' :: (c ++ tail')) = 1 + wsPrefixLen c := by
    unfold wsPrefixLen
    rw [List.takeWhile_cons, if_pos (by decide : isWs ' ' = true), hwsct]
    simp [Nat.add_comm]
  have hlen : (' ' :: (c ++ tail')).length = 1 + c.length + tail'.length := by
    simp [Nat.add_comm, Nat.add_assoc]
    omega
  have hts : numTailStart (' ' :: (c ++ tail')) = some (1 + wsPrefixLen c) := by
    unfold numTailStart
    rw [hws]
    rw [if_pos]
    omega
  have hdropk : (' ' :: (c ++ tail')).drop (1 + wsPrefixLen c) =
      c.drop (wsPrefixLen c) ++ tail' := by
    rw [show (1 + wsPrefixLen c) = wsPrefixLen c + 1 from Nat.add_comm 1 _]
    rw [List.drop_succ_cons]
    exact List.drop_append_of_le_length (le_of_lt hwsc)
  have hnodot : ∀ x ∈ c.drop (wsPrefixLen c), (x ≠ '\n' : Bool) = true := by
    intro x hx
    have : x ∈ c := List.drop_subset _ c hx
    simp only [ne_eq, decide_eq_true_eq]
    intro he
    exact hc (he ▸ this)
  have hrun : ((' ' :: (c ++ tail')).drop (1 + wsPrefixLen c)).takeWhile
      (fun x => x ≠ '\n') = c.drop (wsPrefixLen c) := by
    rw [hdropk]
    rcases htail with h | ⟨z, h⟩
    · rw [h, List.append_nil]
      exact takeWhile_eq_self_of_all hnodot
    · rw [h, takeWhile_append_all _ hnodot, List.takeWhile_cons]
      simp
  simp only [numMatchLen, hds, hdsne, Bool.false_eq_true, if_false, hdrop, hts, hrun]
  have : wsPrefixLen c ≤ c.length := le_of_lt hwsc
  congr 1
  simp only [List.length_drop]
  omega

theorem numMatchLen_nl (rest : Str) : numMatchLen ('\n' :: rest) = none := by
  simp [numMatchLen, List.takeWhile_cons]

/-- Rendering of one numbered item `<digits>. <content>`. -/
def renderItem (it : Str × Str) : Str := it.1 ++ '.' :: ' ' :: it.2

/-- A well-formed numbered line: nonempty all-digit label, content free of
newlines whose last character is not whitespace (so nonempty). -/
def goodItem (it : Str × Str) : Prop :=
  it.1 ≠ [] ∧ (∀ ch ∈ it.1, ch.isDigit = true) ∧ '\n' ∉ it.2 ∧
    isWs (it.2.getLastD ' ') = false

instance : DecidablePred goodItem := fun it => by
  unfold goodItem
  infer_instance

theorem numberedMatches_lines : ∀ (items : List (Str × Str)), items ≠ [] →
    (∀ it ∈ items, goodItem it) →
    numberedMatches (joinSep '\n' (items.map renderItem)) =
      items.map renderItem := by
  intro items
  induction items with
  | nil => intro h _; exact absurd rfl h
  | cons it rest ih =>
    intro _ hgood
    obtain ⟨hd, hdig, hc, hlast⟩ := hgood it (List.mem_cons_self it rest)
    have hlr : (renderItem it).length = it.1.length + 2 + it.2.length := by
      unfold renderItem
      simp only [List.length_append, List.length_cons]
      omega
    cases rest with
    | nil =>
      simp only [List.map_cons, List.map_nil, joinSep]
      have hne : renderItem it ≠ [] := by
        unfold renderItem
        simp
      have hlen := @numMatchLen_render it.1 it.2 ([] : Str) hd hdig hc hlast
        (Or.inl rfl)
      have hlen2 : numMatchLen (renderItem it) =
          some (it.1.length + 2 + it.2.length) := by
        unfold renderItem
        rw [show (it.1 ++ '.' :: ' ' :: it.2 : Str) =
          it.1 ++ '.' :: ' ' :: (it.2 ++ []) from by rw [List.append_nil]]
        exact hlen
      rw [numberedMatches_cons_some hne hlen2]
      rw [show (renderItem it).take (it.1.length + 2 + it.2.length) =
        renderItem it from by rw [← hlr]; exact List.take_length _]
      rw [show (renderItem it).drop (it.1.length + 2 + it.2.length) =
        ([] : Str) from by rw [← hlr]; exact List.drop_length _]
      rw [numberedMatches_nil]
    | cons it2 rest2 =>
      simp only [List.map_cons, joinSep]
      have hjoin : (renderItem it ++
          '\n' :: joinSep '\n' (renderItem it2 :: rest2.map renderItem) : Str) =
          it.1 ++ '.' :: ' ' :: (it.2 ++
            '\n' :: joinSep '\n' (renderItem it2 :: rest2.map renderItem)) := by
        unfold renderItem
        simp [List.append_assoc]
      have hlen := @numMatchLen_render it.1 it.2
        ('\n' :: joinSep '\n' (renderItem it2 :: rest2.map renderItem))
        hd hdig hc hlast (Or.inr ⟨_, rfl⟩)
      have hne : (it.1 ++ '.' :: ' ' :: (it.2 ++
          '\n' :: joinSep '\n' (renderItem it2 :: rest2.map renderItem)) : Str) ≠ [] := by
        rcases it.1 with _ | ⟨a, b⟩ <;> simp
      rw [hjoin, numberedMatches_cons_some hne hlen]
      have htake : (it.1 ++ '.' :: ' ' :: (it.2 ++
          '\n' :: joinSep '\n' (renderItem it2 :: rest2.map renderItem)) : Str).take
            (it.1.length + 2 + it.2.length) = renderItem it := by
        rw [← hjoin, ← hlr]
        exact List.take_left _ _
      have hdrop : (it.1 ++ '.' :: ' ' :: (it.2 ++
          '\n' :: joinSep '\n' (renderItem it2 :: rest2.map renderItem)) : Str).drop
            (it.1.length + 2 + it.2.length) =
          '\n' :: joinSep '\n' (renderItem it2 :: rest2.map renderItem) := by
        rw [← hjoin, ← hlr]
        exact List.drop_left _ _
      rw [htake, hdrop, numberedMatches_cons_none (numMatchLen_nl _)]
      rw [show (joinSep '\n' (renderItem it2 :: rest2.map renderItem) : Str) =
        joinSep '\n' ((it2 :: rest2).map renderItem) from by rw [List.map_cons]]
      rw [ih (by simp) (fun x hx => hgood x (List.mem_cons_of_mem it hx))]
      simp

theorem numMatchLen_none_of_no_dot {s : Str} (h : '.' ∉ s) :
    numMatchLen s = none := by
  simp only [numMatchLen]
  split
  · rfl
  · split
    next after heq =>
      exfalso
      have : '.' ∈ s.drop (s.takeWhile Char.isDigit).length := by
        rw [heq]
        exact List.mem_cons_self '.' after
      exact h (List.drop_subset _ s this)
    next => rfl

theorem numberedMatches_nil_of_no_dot {s : Str} (h : '.' ∉ s) :
    numberedMatches s = [] := by
  induction s with
  | nil => exact numberedMatches_nil
  | cons c rest ih =>
    rw [numberedMatches_cons_none (numMatchLen_none_of_no_dot h)]
    exact ih (fun hm => h (List.mem_cons_of_mem c hm))

/- ### Parse-level facts about the acceptance block -/

theorem firstOccIdx_of_prefix {hay pat : Str} (h : pat.isPrefixOf hay = true) :
    firstOccIdx hay pat = some 0 := by
  unfold firstOccIdx
  rw [if_pos h]

theorem firstOccCI_append_self (m r : Str) : firstOccCI (m ++ r) m = some 0 := by
  unfold firstOccCI
  rw [lowerStr_append]
  exact firstOccIdx_of_prefix
    (List.isPrefixOf_iff_prefix.mpr (List.prefix_append _ _))

theorem listCapture_append_self (m : Str) (x : Char) (r : Str) :
    listCapture (m ++ x :: r) m = some (trimChars (x :: r)) := by
  unfold listCapture
  rw [firstOccCI_append_self]
  simp [List.drop_left]

theorem joinSep_ne_nil {sep : Char} {ws : List Str} (hne : ws ≠ [])
    (hel : ∀ x ∈ ws, x ≠ []) : joinSep sep ws ≠ [] := by
  cases ws with
  | nil => exact absurd rfl hne
  | cons w t =>
    cases t with
    | nil => exact hel w (List.mem_cons_self w [])
    | cons v u => simp [joinSep]

theorem joinSep_head {sep : Char} {w : Str} (ws : List Str) (hw : w ≠ []) :
    (joinSep sep (w :: ws)).head? = w.head? := by
  cases ws with
  | nil => rfl
  | cons v u =>
    show (w ++ sep :: joinSep sep (v :: u)).head? = w.head?
    exact List.head?_append_of_ne_nil w hw

theorem joinSep_getLast {sep : Char} : ∀ (ws : List Str), ws ≠ [] →
    (∀ x ∈ ws, x ≠ []) →
    (joinSep sep ws).getLast? = (ws.getLastD []).getLast? := by
  intro ws
  induction ws with
  | nil => intro h _; exact absurd rfl h
  | cons w t ih =>
    intro _ hel
    cases t with
    | nil => rfl
    | cons v u =>
      have hj : joinSep sep (w :: v :: u) = w ++ sep :: joinSep sep (v :: u) := rfl
      rw [hj, List.getLast?_append_of_ne_nil w (by simp)]
      have hne2 : joinSep sep (v :: u) ≠ [] :=
        joinSep_ne_nil (by simp) (fun x hx => hel x (List.mem_cons_of_mem w hx))
      rw [show (sep :: joinSep sep (v :: u) : Str) =
        [sep] ++ joinSep sep (v :: u) from rfl]
      rw [List.getLast?_append_of_ne_nil [sep] hne2]
      rw [ih (by simp) (fun x hx => hel x (List.mem_cons_of_mem w hx))]
      rw [List.getLastD_cons, List.getLastD_cons, List.getLastD_cons]

theorem renderItem_getLast {it : Str × Str} (hc : it.2 ≠ []) :
    (renderItem it).getLast? = it.2.getLast? := by
  unfold renderItem
  rw [List.getLast?_append_of_ne_nil it.1 (by simp)]
  rw [show ('.' :: ' ' :: it.2 : Str) = ['.', ' '] ++ it.2 from rfl]
  rw [List.getLast?_append_of_ne_nil _ hc]

theorem goodItem_content_ne {it : Str × Str} (h : goodItem it) : it.2 ≠ [] := by
  intro he
  have := h.2.2.2
  rw [he] at this
  exact Bool.noConfusion this

theorem joined_lines_getLast_not_ws : ∀ (items : List (Str × Str)), items ≠ [] →
    (∀ it ∈ items, goodItem it) → ∀ c,
    (joinSep '\n' (items.map renderItem)).getLast? = some c → isWs c = false := by
  intro items
  induction items with
  | nil => intro h _; exact absurd rfl h
  | cons it rest ih =>
    intro _ hgood c hcc
    have hit := hgood it (List.mem_cons_self it rest)
    cases rest with
    | nil =>
      rw [List.map_cons, List.map_nil] at hcc
      have : (joinSep '\n' [renderItem it] : Str) = renderItem it := rfl
      rw [this, renderItem_getLast (goodItem_content_ne hit)] at hcc
      have hgd : it.2.getLastD ' ' = c := by
        rw [List.getLastD_eq_getLast?, hcc]
        rfl
      rw [← hgd]
      exact hit.2.2.2
    | cons it2 rest2 =>
      rw [List.map_cons] at hcc
      have hj : (joinSep '\n' (renderItem it :: (it2 :: rest2).map renderItem) : Str) =
          renderItem it ++ '\n' :: joinSep '\n' ((it2 :: rest2).map renderItem) := by
        rw [List.map_cons]
        rfl
      rw [hj, List.getLast?_append_of_ne_nil _ (by simp)] at hcc
      have hne2 : (joinSep '\n' ((it2 :: rest2).map renderItem) : Str) ≠ [] := by
        apply joinSep_ne_nil (by simp)
        intro x hx
        rw [List.mem_map] at hx
        obtain ⟨y, _, hy⟩ := hx
        rw [← hy]
        unfold renderItem
        simp
      rw [show ('\n' :: joinSep '\n' ((it2 :: rest2).map renderItem) : Str) =
        ['\n'] ++ joinSep '\n' ((it2 :: rest2).map renderItem) from rfl,
        List.getLast?_append_of_ne_nil _ hne2] at hcc
      exact ih (by simp) (fun x hx => hgood x (List.mem_cons_of_mem it hx)) c hcc

theorem trimChars_joined_lines {items : List (Str × Str)} (hne : items ≠ [])
    (hgood : ∀ it ∈ items, goodItem it) :
    trimChars (' ' :: joinSep '\n' (items.map renderItem)) =
      joinSep '\n' (items.map renderItem) := by
  rw [trimChars_cons_ws (by decide)]
  cases items with
  | nil => exact absurd rfl hne
  | cons it rest =>
    have hit := hgood it (List.mem_cons_self it rest)
    have hrne : renderItem it ≠ [] := by
      unfold renderItem
      simp
    apply trimChars_eq_self
    · intro c hcc
      rw [List.map_cons, joinSep_head _ hrne] at hcc
      rcases hd1 : it.1 with _ | ⟨dg, dt⟩
      · exact absurd hd1 hit.1
      · unfold renderItem at hcc
        rw [hd1] at hcc
        simp only [List.cons_append, List.head?_cons, Option.some_inj] at hcc
        rw [← hcc]
        exact isWs_false_of_digit
          (hit.2.1 dg (by rw [hd1]; exact List.mem_cons_self dg dt))
    · intro c hcc
      exact joined_lines_getLast_not_ws (it :: rest) (by simp) hgood c hcc

theorem listField_story_eq (content : Str) :
    listField content .story =
      match listCapture content acMarker with
      | none => []
      | some t => match numberedMatches t with | [] => [t] | ms => ms := rfl

theorem listField_story_lines {items : List (Str × Str)} (hne : items ≠ [])
    (hgood : ∀ it ∈ items, goodItem it) :
    listField (acMarker ++ ' ' :: joinSep '\n' (items.map renderItem)) .story =
      items.map renderItem := by
  rw [listField_story_eq, listCapture_append_self]
  show (match numberedMatches (trimChars (' ' :: joinSep '\n' (items.map renderItem))) with
    | [] => [trimChars (' ' :: joinSep '\n' (items.map renderItem))]
    | ms => ms) = items.map renderItem
  rw [trimChars_joined_lines hne hgood, numberedMatches_lines items hne hgood]
  cases items with
  | nil => exact absurd rfl hne
  | cons it rest => rfl

theorem listField_story_no_dot {r : Str} (h : '.' ∉ r) :
    listField (acMarker ++ ' ' :: r) .story = [trimChars r] := by
  rw [listField_story_eq, listCapture_append_self]
  show (match numberedMatches (trimChars (' ' :: r)) with
    | [] => [trimChars (' ' :: r)]
    | ms => ms) = [trimChars r]
  rw [trimChars_cons_ws (by decide),
    numberedMatches_nil_of_no_dot (fun hm => h (mem_of_mem_trimChars hm))]

theorem listField_issue_eq (content : Str) :
    listField content .issue =
      match listCapture content stepsMarker with
      | none => []
      | some t => match numberedMatches t with | [] => [t] | ms => ms := rfl

theorem listField_issue_lines {items : List (Str × Str)} (hne : items ≠ [])
    (hgood : ∀ it ∈ items, goodItem it) :
    listField (stepsMarker ++ ' ' :: joinSep '\n' (items.map renderItem)) .issue =
      items.map renderItem := by
  rw [listField_issue_eq, listCapture_append_self]
  show (match numberedMatches (trimChars (' ' :: joinSep '\n' (items.map renderItem))) with
    | [] => [trimChars (' ' :: joinSep '\n' (items.map renderItem))]
    | ms => ms) = items.map renderItem
  rw [trimChars_joined_lines hne hgood, numberedMatches_lines items hne hgood]
  cases items with
  | nil => exact absurd rfl hne
  | cons it rest => rfl

theorem listField_issue_no_dot {r : Str} (h : '.' ∉ r) :
    listField (stepsMarker ++ ' ' :: r) .issue = [trimChars r] := by
  rw [listField_issue_eq, listCapture_append_self]
  show (match numberedMatches (trimChars (' ' :: r)) with
    | [] => [trimChars (' ' :: r)]
    | ms => ms) = [trimChars r]
  rw [trimChars_cons_ws (by decide),
    numberedMatches_nil_of_no_dot (fun hm => h (mem_of_mem_trimChars hm))]

theorem parse_some_of_acceptance {content : Str} {ty : WorkItemType}
    (h : listField content ty ≠ []) :
    ∃ u, parseStructuredResponse content ty = some u ∧
      u.acceptance = some (listField content ty) := by
  have hie : (listField content ty).isEmpty = false := List.isEmpty_eq_false.mpr h
  unfold parseStructuredResponse
  simp only [hie, Bool.false_eq_true, if_false]
  rw [if_pos (by simp)]
  exact ⟨_, rfl, rfl⟩

theorem parse_title_only {c : Str} {ty : WorkItemType}
    (hT : fieldValue c titleMarker [descMarker] ≠ [])
    (hD : occursCI c descMarker = false) (hA : occursCI c acMarker = false)
    (hS : occursCI c stepsMarker = false) :
    parseStructuredResponse c ty =
      some ⟨some (fieldValue c titleMarker [descMarker]), none, none⟩ := by
  have h1 : fieldValue c descMarker [acMarker, stepsMarker] = [] :=
    fieldValue_of_not_occurs hD _
  have h2 : listField c ty = [] := listField_of_not_occurs ty hA hS
  have hie : (fieldValue c titleMarker [descMarker]).isEmpty = false :=
    List.isEmpty_eq_false.mpr hT
  unfold parseStructuredResponse
  simp only [h1, h2, hie, List.isEmpty_nil, if_true, Bool.false_eq_true, if_false]
  rw [if_pos (by simp)]

theorem parse_none_of_no_markers {c : Str} (ty : WorkItemType)
    (hT : occursCI c titleMarker = false) (hD : occursCI c descMarker = false)
    (hA : occursCI c acMarker = false) (hS : occursCI c stepsMarker = false) :
    parseStructuredResponse c ty = none := by
  have h0 : fieldValue c titleMarker [descMarker] = [] :=
    fieldValue_of_not_occurs hT _
  have h1 : fieldValue c descMarker [acMarker, stepsMarker] = [] :=
    fieldValue_of_not_occurs hD _
  have h2 : listField c ty = [] := listField_of_not_occurs ty hA hS
  unfold parseStructuredResponse
  simp [h0, h1, h2]

theorem parse_fields_nonempty {c : Str} {ty : WorkItemType} {u : Updates}
    (h : parseStructuredResponse c ty = some u) :
    u.title ≠ some [] ∧ u.description ≠ some [] := by
  unfold parseStructuredResponse at h
  dsimp only at h
  by_cases h1 : (fieldValue c titleMarker [descMarker]).isEmpty <;>
    by_cases h2 : (fieldValue c descMarker [acMarker, stepsMarker]).isEmpty <;>
      by_cases h3 : (listField c ty).isEmpty <;>
        simp only [h1, h2, h3, Bool.false_eq_true, if_true, if_false,
          Option.isSome_some, Option.isSome_none, Bool.or_self, Bool.false_or,
          Bool.or_false, Bool.true_or, Bool.or_true, Option.some.injEq] at h
  all_goals
    first
      | exact Option.noConfusion h
      | (subst h
         constructor <;> simp_all [List.isEmpty_eq_false])

/- ### Well-formed upstream records (for the relay theorems) -/

/-- A line carrying a well-formed content record: it frames as a `data:`
record whose payload is not the sentinel and parses (via the oracle `pf`)
to a present, nonempty content fragment. -/
def goodRec (pf : Str → UpstreamParse) (l frag : Str) : Prop :=
  ("data:".data).isPrefixOf (trimChars l) = true ∧
    trimChars ((trimChars l).drop 5) ≠ "[DONE]".data ∧
    pf (trimChars ((trimChars l).drop 5)) = .parsed (some frag) ∧ frag ≠ []

/-- A line framing the `[DONE]` sentinel record. -/
def doneRec (l : Str) : Prop :=
  ("data:".data).isPrefixOf (trimChars l) = true ∧
    trimChars ((trimChars l).drop 5) = "[DONE]".data

theorem lineFrames_of_recs {pf : Str → UpstreamParse} {recs frags : List Str}
    (h : List.Forall₂ (goodRec pf) recs frags) :
    lineFrames pf recs = (frags.map Frame.delta, false) := by
  induction h with
  | nil => rfl
  | cons hrec _ ih =>
    obtain ⟨h1, h2, h3, h4⟩ := hrec
    simp only [lineFrames, h1, if_true, if_neg h2, h3,
      List.isEmpty_eq_false.mpr h4, Bool.false_eq_true, if_false, ih]
    simp

theorem lineFrames_done {pf : Str → UpstreamParse} {l : Str} (h : doneRec l)
    (ls : List Str) :
    lineFrames pf (l :: ls) = ([Frame.done], true) := by
  obtain ⟨h1, h2⟩ := h
  simp only [lineFrames, h1, if_true, if_pos h2]

/- ### Lemmas about the readiness gate -/

theorem isFullTemplate_exists {c : Str} (h : isFullTemplate c = true) :
    ∃ a b m, ciAt c titleMarker a = true ∧ a + 7 ≤ b ∧
      (c.drop b).head? = some '\n' ∧
      ciAt c descMarker (b + 1) = true ∧ b + 14 ≤ m ∧
      ((ciAt c acMarker m = true ∧ numItemAt c (m + 20) = true) ∨
        (ciAt c stepsMarker m = true ∧ numItemAt c (m + 6) = true)) := by
  unfold isFullTemplate at h
  simp only [List.any_eq_true, List.mem_range, Bool.and_eq_true,
    decide_eq_true_eq, Bool.or_eq_true, beq_iff_eq] at h
  obtain ⟨a, _, ha, b, _, ⟨⟨hab, hnl⟩, hd⟩, m, _, hbm, hor⟩ := h
  exact ⟨a, b, m, ha, hab, hnl, hd, hbm, hor⟩

theorem intDotAt_of_numItemAt {c : Str} {pos : Nat} (h : numItemAt c pos = true) :
    ∃ k, pos ≤ k ∧ k < c.length ∧ intDotAt c k = true := by
  unfold numItemAt at h
  rw [Bool.and_eq_true] at h
  obtain ⟨hds, hdot⟩ := h
  refine ⟨pos + wsPrefixLen (c.drop pos), Nat.le_add_right _ _, ?_, ?_⟩
  · have hne : (c.drop pos).drop (wsPrefixLen (c.drop pos)) ≠ [] := by
      intro he
      rw [he] at hds
      simp at hds
    rw [List.drop_drop] at hne
    by_contra hge
    push_neg at hge
    exact hne (List.drop_eq_nil_iff.mpr (by omega))
  · unfold intDotAt
    rw [← List.drop_drop, Bool.and_eq_true]
    exact ⟨hds, hdot⟩

theorem readySet_no_desc {c : Str} (ty : WorkItemType)
    (h : occursCI c descMarker = false) : readySetAfter c ty = false := by
  unfold readySetAfter
  rcases hf : isFullTemplate c
  · simp [hf]
  · exfalso
    obtain ⟨a, b, m, _, _, _, hd, _, _⟩ := isFullTemplate_exists hf
    rw [occursCI_of_ciAt hd] at h
    exact Bool.noConfusion h

theorem readySet_sound {c : Str} {ty : WorkItemType}
    (h : readySetAfter c ty = true) : specTemplateMarkersInOrder c = true := by
  unfold readySetAfter at h
  rw [Bool.and_eq_true] at h
  obtain ⟨a, b, m, ha, hab, hnl, hd, hbm, hor⟩ := isFullTemplate_exists h.2
  unfold specTemplateMarkersInOrder
  simp only [List.any_eq_true, List.mem_range, Bool.and_eq_true,
    decide_eq_true_eq, Bool.or_eq_true]
  have hma : a < c.length := ciAt_lt (by decide) ha
  have hmd : b + 1 < c.length := ciAt_lt (by decide) hd
  refine ⟨a, hma, ha, b + 1, hmd, ⟨by omega, hd⟩, m, ?_, ⟨by omega, ?_⟩⟩
  · rcases hor with ⟨hm, _⟩ | ⟨hm, _⟩
    · exact ciAt_lt (by decide) hm
    · exact ciAt_lt (by decide) hm
  · rcases hor with ⟨hm, hn⟩ | ⟨hm, hn⟩
    · obtain ⟨k, hk1, hk2, hk3⟩ := intDotAt_of_numItemAt hn
      exact Or.inl ⟨hm, k, hk2, by omega, hk3⟩
    · obtain ⟨k, hk1, hk2, hk3⟩ := intDotAt_of_numItemAt hn
      exact Or.inr ⟨hm, k, hk2, by omega, hk3⟩

/- ### Lemmas about payload validation -/

theorem safeParse_no_type {fs : List (Str × JsonVal)}
    (h : jLookup fs ("workItemType".data) = none) :
    chatRequestSafeParse (.obj fs) = none := by
  simp only [chatRequestSafeParse, h]

theorem safeParse_bad_type {fs : List (Str × JsonVal)} {v : JsonVal}
    (h : jLookup fs ("workItemType".data) = some v)
    (hv : parseWorkItemType v = none) :
    chatRequestSafeParse (.obj fs) = none := by
  rcases hmsg : jLookup fs ("messages".data) with _ | v2
  · simp [chatRequestSafeParse, h, hmsg]
  · rcases v2 with _ | _ | _ | _ | xs | _ <;>
      simp [chatRequestSafeParse, h, hmsg, hv]

theorem safeParse_msgs_not_arr {fs : List (Str × JsonVal)} {v : JsonVal}
    (h : jLookup fs ("messages".data) = some v) (hv : ∀ xs, v ≠ .arr xs) :
    chatRequestSafeParse (.obj fs) = none := by
  rcases hw : jLookup fs ("workItemType".data) with _ | w
  · exact safeParse_no_type hw
  · rcases v with _ | _ | _ | _ | xs | _ <;>
      first
        | exact absurd rfl (hv xs)
        | simp [chatRequestSafeParse, h, hw]

theorem safeParse_bad_msg {fs : List (Str × JsonVal)} {xs : List JsonVal}
    {x : JsonVal} (harr : jLookup fs ("messages".data) = some (.arr xs))
    (hx : x ∈ xs) (hpm : parseMessage x = none) :
    chatRequestSafeParse (.obj fs) = none := by
  rcases hw : jLookup fs ("workItemType".data) with _ | w
  · exact safeParse_no_type hw
  · rcases hty : parseWorkItemType w with _ | ty
    · exact safeParse_bad_type hw hty
    · have hm : List.mapM.loop parseMessage xs [] = none := mapM_eq_none hx hpm
      simp [chatRequestSafeParse, harr, hw, hty, hm]

theorem safeParse_not_obj {v : JsonVal} (h : ∀ fs, v ≠ .obj fs) :
    chatRequestSafeParse v = none := by
  rcases v with _ | _ | _ | _ | _ | fs
  · rfl
  · rfl
  · rfl
  · rfl
  · rfl
  · exact absurd rfl (h fs)

/- ## Claim theorems -/

/-- C1: for every upstream byte stream on the relay's stream path whose
line framing yields N well-formed `data: <json>` records, each carrying a
nonempty `choices[0].delta.content` fragment, followed by a `data: [DONE]`
record, the relay writes exactly the N delta frames with those payloads in
order, then exactly one `done` frame, and nothing after it (the connection
is closed). -/
theorem relay_delta_then_done (pf : Str → UpstreamParse)
    (chunks recs frags : List Str) (dl : Str) (e : ReadEnd)
    (hframe : linesOf chunks.flatten = recs ++ [dl])
    (hrecs : List.Forall₂ (goodRec pf) recs frags)
    (hdone : doneRec dl) :
    pumpEvents pf [] chunks e =
      frags.map (fun d => Event.frame (Frame.delta d)) ++
        [Event.frame Frame.done, Event.close] := by
  rw [pumpEvents_eq_lineEvents pf [] chunks e (by simp)]
  rw [List.nil_append, hframe, lineEvents, lineFrames_append,
    lineFrames_of_recs hrecs, lineFrames_done hdone]
  simp

/-- Witness for C1: a two-chunk stream carrying two content records (one of
them split across the chunk boundary) and the sentinel. -/
def pfW : Str → UpstreamParse := fun p =>
  if p = "j1".data then .parsed (some "Hello".data)
  else if p = "j2".data then .parsed (some " world".data)
  else .parseError

theorem relay_delta_then_done_witness :
    pumpEvents pfW [] ["data: j1\nda".data, "ta: j2\ndata: [DONE]\n".data] .eof =
      ["Hello".data, " world".data].map (fun d => Event.frame (Frame.delta d)) ++
        [Event.frame Frame.done, Event.close] :=
  relay_delta_then_done pfW _ ["data: j1".data, "data: j2".data]
    ["Hello".data, " world".data] ("data: [DONE]".data) .eof (by decide)
    (List.Forall₂.cons ⟨by decide, by decide, rfl, by decide⟩
      (List.Forall₂.cons ⟨by decide, by decide, rfl, by decide⟩ List.Forall₂.nil))
    ⟨by decide, by decide⟩

/-- C9: on the upstream path the relay always terminates: whatever the
chunks are, and whether reading ends normally or by raising, the event
sequence is some deltas, then exactly one `done` frame, then exactly one
close, with nothing after. -/
theorem relay_always_terminates (pf : Str → UpstreamParse) (chunks : List Str)
    (e : ReadEnd) :
    ∃ ds : List Str,
      pumpEvents pf [] chunks e =
        ds.map (fun d => Event.frame (Frame.delta d)) ++
          [Event.frame Frame.done, Event.close] ∧
      (pumpEvents pf [] chunks e).count (Event.frame Frame.done) = 1 ∧
      (pumpEvents pf [] chunks e).count Event.close = 1 := by
  obtain ⟨ds, hds⟩ := pump_shape pf [] chunks e
  refine ⟨ds, hds, ?_, ?_⟩ <;>
    · rw [hds, List.count_append, List.count_eq_zero.mpr (by simp)]
      rfl

/-- C4: after a terminal frame the connection is closed exactly once, and a
client disconnect after the terminal frame triggers no further write and no
second close.  Upstream path: the event sequence ends with the single
close.  Fallback path: over every event-loop trace at most one close is
emitted and the events are deltas followed by at most one `done` (and close);
in the scenario where the client disconnect arrives after the `done` frame,
the full event sequence is exactly the deltas, `done`, and one close — the
disconnect步 contributes nothing. -/
theorem terminal_close_once :
    (∀ (pf : Str → UpstreamParse) (chunks : List Str) (e : ReadEnd),
      ∃ pre, pumpEvents pf [] chunks e = pre ++ [Event.close] ∧
        (pumpEvents pf [] chunks e).count Event.close = 1) ∧
    (∀ (ty : WorkItemType) (r : Fin 5) (tr : List FbLabel),
      (fbRun (fbInit ty r) tr).count Event.close ≤ 1) ∧
    (∀ (ty : WorkItemType) (r : Fin 5) (tr : List FbLabel),
      ∃ (ds : List Str) (tl : List Event),
        fbRun (fbInit ty r) tr =
          ds.map (fun d => Event.frame (Frame.delta d)) ++ tl ∧
        (tl = [] ∨ tl = [Event.frame Frame.done] ∨
          tl = [Event.frame Frame.done, Event.close])) ∧
    (∀ (ty : WorkItemType) (r : Fin 5),
      fbRun (fbInit ty r)
          (List.replicate
            ((splitChar ' ' (generateReplyContent ty r)).length + 1)
            FbLabel.tick ++ [FbLabel.clientClose, FbLabel.timerFire]) =
        (wordDeltas (splitChar ' ' (generateReplyContent ty r))).map
            Event.frame ++
          [Event.frame Frame.done, Event.close]) := by
  refine ⟨?_, ?_, ?_, ?_⟩
  · intro pf chunks e
    obtain ⟨ds, hds⟩ := pump_shape pf [] chunks e
    refine ⟨ds.map (fun d => Event.frame (Frame.delta d)) ++
      [Event.frame Frame.done], ?_, ?_⟩
    · rw [hds]
      simp
    · rw [hds, List.count_append, List.count_eq_zero.mpr (by simp)]
      rfl
  · intro ty r tr
    obtain ⟨ds, tl, heq, htl⟩ := fbRun_active tr (fbInit ty r) rfl rfl
    rw [heq, List.count_append, List.count_eq_zero.mpr (by simp)]
    rcases htl with h | h | h <;> subst h <;> simp
  · intro ty r tr
    exact fbRun_active tr (fbInit ty r) rfl rfl
  · intro ty r
    obtain ⟨b, hb⟩ := fbRun_ticks (splitChar ' ' (generateReplyContent ty r))
      true [FbLabel.clientClose, FbLabel.timerFire]
    rw [show fbInit ty r =
      ⟨splitChar ' ' (generateReplyContent ty r), true, true, false⟩ from rfl, hb]
    rw [wordDeltasFrom_true]
    simp [fbRun, fbStep]

/-- C3: when the upstream chat source cannot be established (no API key,
non-2xx response, or missing body) the route commits to the canned
fallback, whose interval run terminates: one delta per space-separated word
of the canned content — the first word bare, every later word prefixed by a
single space — followed by exactly one `done` frame (and the close); the
deltas concatenate back to the canned content and no error frame is
emitted. -/
theorem fallback_word_stream (body : JsonVal) (req : ChatRequest)
    (up : UpstreamOutcome) (r : Fin 5) (pf : Str → UpstreamParse)
    (hreq : chatRequestSafeParse body = some req)
    (hup : streamOpenAIChat up = none ∨ streamOpenAIChat up = some none) :
    chatStreamPlan body up r = .canned req.workItemType r ∧
    planEvents pf
        (List.replicate
          ((splitChar ' ' (generateReplyContent req.workItemType r)).length + 1)
          FbLabel.tick ++ [FbLabel.timerFire])
        (chatStreamPlan body up r) =
      (wordDeltas (splitChar ' ' (generateReplyContent req.workItemType r))).map
          Event.frame ++
        [Event.frame Frame.done, Event.close] ∧
    deltasConcat (wordDeltas (splitChar ' ' (generateReplyContent req.workItemType r))) =
      generateReplyContent req.workItemType r ∧
    (wordDeltas (splitChar ' ' (generateReplyContent req.workItemType r))).length =
      (splitChar ' ' (generateReplyContent req.workItemType r)).length ∧
    (∀ m, Frame.error m ∉
      wordDeltas (splitChar ' ' (generateReplyContent req.workItemType r))) := by
  have hplan : chatStreamPlan body up r = .canned req.workItemType r := by
    unfold chatStreamPlan
    rw [hreq]
    rcases hup with h | h <;> rw [h]
  refine ⟨hplan, ?_, ?_, ?_, ?_⟩
  · rw [hplan]
    show fbRun (fbInit req.workItemType r) _ = _
    obtain ⟨b, hb⟩ := fbRun_ticks (splitChar ' ' (generateReplyContent req.workItemType r))
      true [FbLabel.timerFire]
    rw [show fbInit req.workItemType r =
      ⟨splitChar ' ' (generateReplyContent req.workItemType r), true, true, false⟩
      from rfl, hb, wordDeltasFrom_true]
    simp [fbRun, fbStep]
  · rw [deltasConcat_wordDeltas, joinSep_splitChar]
  · rcases splitChar ' ' (generateReplyContent req.workItemType r) with _ | ⟨w, ws⟩ <;>
      simp [wordDeltas]
  · intro m
    rcases splitChar ' ' (generateReplyContent req.workItemType r) with _ | ⟨w, ws⟩ <;>
      simp [wordDeltas]

/-- Witness for C3: a valid story request with no API key configured. -/
def bodyW : JsonVal :=
  .obj [("workItemType".data, .str ("story".data)), ("messages".data, .arr [])]

theorem fallback_word_stream_witness :
    chatStreamPlan bodyW .noKey 0 = .canned WorkItemType.story 0 ∧
    deltasConcat (wordDeltas (splitChar ' ' (generateReplyContent WorkItemType.story 0))) =
      generateReplyContent WorkItemType.story 0 :=
  have h := fallback_word_stream bodyW ⟨.story, []⟩ .noKey 0 pfW rfl (Or.inl rfl)
  ⟨h.1, h.2.2.1⟩

/-- C5: a request body failing validation gets exactly one error frame with
the fixed message `Invalid chat payload`, immediately followed by exactly
one `done` frame and the close, and no delta frame is ever written; a body
without `workItemType`, with an unknown `workItemType`, with a
non-array `messages`, with a malformed message element, or that is not an
object at all, all fail validation. -/
theorem invalid_payload_error_frame :
    (∀ (body : JsonVal) (up : UpstreamOutcome) (r : Fin 5)
        (pf : Str → UpstreamParse) (tr : List FbLabel),
      chatRequestSafeParse body = none →
        planEvents pf tr (chatStreamPlan body up r) =
          [Event.frame (Frame.error invalidMsg), Event.frame Frame.done,
            Event.close] ∧
        ∀ d, Event.frame (Frame.delta d) ∉
          planEvents pf tr (chatStreamPlan body up r)) ∧
    (∀ fs, jLookup fs ("workItemType".data) = none →
      chatRequestSafeParse (.obj fs) = none) ∧
    (∀ fs v, jLookup fs ("workItemType".data) = some v →
      parseWorkItemType v = none → chatRequestSafeParse (.obj fs) = none) ∧
    (∀ fs v, jLookup fs ("messages".data) = some v → (∀ xs, v ≠ .arr xs) →
      chatRequestSafeParse (.obj fs) = none) ∧
    (∀ fs xs x, jLookup fs ("messages".data) = some (.arr xs) → x ∈ xs →
      parseMessage x = none → chatRequestSafeParse (.obj fs) = none) ∧
    (∀ v, (∀ fs, v ≠ .obj fs) → chatRequestSafeParse v = none) := by
  refine ⟨?_, fun fs h => safeParse_no_type h,
    fun fs v h hv => safeParse_bad_type h hv,
    fun fs v h hv => safeParse_msgs_not_arr h hv,
    fun fs xs x h hx hpm => safeParse_bad_msg h hx hpm,
    fun v h => safeParse_not_obj h⟩
  intro body up r pf tr h
  have hplan : chatStreamPlan body up r = .invalidPayload := by
    unfold chatStreamPlan
    rw [h]
  rw [hplan]
  exact ⟨rfl, by intro d; simp [planEvents, invalidMsg]⟩

theorem invalid_payload_error_frame_witness :
    planEvents pfW [] (chatStreamPlan (.str ("x".data)) .noKey 0) =
      [Event.frame (Frame.error invalidMsg), Event.frame Frame.done,
        Event.close] :=
  (invalid_payload_error_frame.1 (.str ("x".data)) .noKey 0 pfW [] rfl).1

/-- Counterexample for C2: this text contains `Title:`, then
`Description:`, then `Acceptance Criteria:`, then a numbered line — so the
claim's condition holds — yet the code's gate rejects it (no newline
immediately before `Description:`), so readiness is not set. -/
theorem readiness_gate_counterexample :
    specCompleteTemplate
        ("Title: A Description: B\nAcceptance Criteria:\n1. C".data) = true ∧
    readySetAfter ("Title: A Description: B\nAcceptance Criteria:\n1. C".data)
        .story = false := by
  constructor <;> decide

/-- C2 (amended): readiness is set only if the markers occur
case-insensitively in order with an `<int>.` item after the list marker
(the code's gate additionally demands a literal newline immediately before
`Description:` and the numbered item directly after the list marker, so the
converse fails); and a text without any `Description:` marker — in
particular a Title-only message — never sets readiness. -/
theorem readiness_gate_amended :
    (∀ (c : Str) (ty : WorkItemType), readySetAfter c ty = true →
      specTemplateMarkersInOrder c = true) ∧
    (∀ (c : Str) (ty : WorkItemType), occursCI c descMarker = false →
      readySetAfter c ty = false) :=
  ⟨fun _ _ h => readySet_sound h, fun _ ty h => readySet_no_desc ty h⟩

theorem readiness_gate_amended_witness :
    specTemplateMarkersInOrder
        ("Title: A\nDescription: B Acceptance Criteria: 1. C".data) = true ∧
    readySetAfter ("Title: only".data) .story = false :=
  ⟨readiness_gate_amended.1
      ("Title: A\nDescription: B Acceptance Criteria: 1. C".data) .story
      (by decide),
    readiness_gate_amended.2 ("Title: only".data) .story (by decide)⟩

/-- C6: on a text whose only recognized marker is `Title:`, the extractor
returns an update carrying only the (trimmed) title; merging it into a
draft changes only the title, leaving description and acceptance exactly as
they were; and whenever an update carries an acceptance list, the merge
replaces the draft's list wholly. -/
theorem title_only_partial_update :
    (∀ (c : Str) (ty : WorkItemType),
      fieldValue c titleMarker [descMarker] ≠ [] →
      occursCI c descMarker = false → occursCI c acMarker = false →
      occursCI c stepsMarker = false →
      parseStructuredResponse c ty =
        some ⟨some (fieldValue c titleMarker [descMarker]), none, none⟩ ∧
      ∀ w : WorkItem,
        (applyExtraction w (parseStructuredResponse c ty)).title =
          fieldValue c titleMarker [descMarker] ∧
        (applyExtraction w (parseStructuredResponse c ty)).description =
          w.description ∧
        (applyExtraction w (parseStructuredResponse c ty)).acceptance =
          w.acceptance) ∧
    (∀ ty : WorkItemType, parseStructuredResponse ("Title: Foo".data) ty =
      some ⟨some ("Foo".data), none, none⟩) ∧
    (∀ (w : WorkItem) (u : Updates) (l : List Str), u.acceptance = some l →
      (mergeExtraction w u).acceptance = l) := by
  refine ⟨?_, ?_, ?_⟩
  · intro c ty hT hD hA hS
    have hp := @parse_title_only c ty hT hD hA hS
    refine ⟨hp, fun w => ?_⟩
    rw [hp]
    simp [applyExtraction, mergeExtraction]
  · intro ty
    cases ty <;> decide
  · intro w u l h
    simp [mergeExtraction, h]

theorem title_only_partial_update_witness :
    parseStructuredResponse ("Title: Foo".data) .story =
      some ⟨some ("Foo".data), none, none⟩ :=
  (title_only_partial_update.1 ("Title: Foo".data) .story (by decide) (by decide)
    (by decide) (by decide)).1

/-- Counterexample for C7: the remainder `version 2.5 rocks` contains no
numbered line, yet the extractor does not return the whole trimmed
remainder as the single list element — the (unanchored) item regex matches
mid-text and yields `2.5 rocks`. -/
theorem numbered_list_counterexample :
    ((splitChar '\n' ("version 2.5 rocks".data)).any specNumberedLine) = false ∧
    parseStructuredResponse
        ("Acceptance Criteria: version 2.5 rocks".data) .story =
      some ⟨none, none, some ["2.5 rocks".data]⟩ ∧
    ("2.5 rocks".data : Str) ≠ trimChars ("version 2.5 rocks".data) := by
  refine ⟨by decide, by decide, by decide⟩

/-- C7 (amended): the extractor collects the matches of `/\d+\.\s*[^\n]+/g`
scanned anywhere in the remainder (not only at line starts).  When the
remainder consists of well-formed numbered lines this gives exactly those
lines in order — for `story` after `Acceptance Criteria:` and equally for
`issue` after `Steps:`; when the remainder has no match at all (e.g. it is
dot-free) the whole trimmed remainder becomes the single element, again for
both types. -/
theorem numbered_list_extraction_amended :
    (∀ items : List (Str × Str), items ≠ [] → (∀ it ∈ items, goodItem it) →
      (∃ u, parseStructuredResponse
          (acMarker ++ ' ' :: joinSep '\n' (items.map renderItem)) .story =
            some u ∧
        u.acceptance = some (items.map renderItem)) ∧
      (∃ u, parseStructuredResponse
          (stepsMarker ++ ' ' :: joinSep '\n' (items.map renderItem)) .issue =
            some u ∧
        u.acceptance = some (items.map renderItem))) ∧
    (∀ r : Str, '.' ∉ r →
      (∃ u, parseStructuredResponse (acMarker ++ ' ' :: r) .story = some u ∧
        u.acceptance = some [trimChars r]) ∧
      (∃ u, parseStructuredResponse (stepsMarker ++ ' ' :: r) .issue = some u ∧
        u.acceptance = some [trimChars r])) ∧
    parseStructuredResponse ("Acceptance Criteria: 1. A\n2. B\n3. C".data)
        .story = some ⟨none, none, some ["1. A".data, "2. B".data, "3. C".data]⟩ ∧
    parseStructuredResponse ("Steps: 1. A\n2. B".data) .issue =
      some ⟨none, none, some ["1. A".data, "2. B".data]⟩ := by
  refine ⟨?_, ?_, by decide, by decide⟩
  · intro items hne hgood
    have hmapne : items.map renderItem ≠ [] := by
      intro he
      exact hne (List.map_eq_nil_iff.mp he)
    constructor
    · have hl := listField_story_lines hne hgood
      obtain ⟨u, hu, hacc⟩ :=
        @parse_some_of_acceptance
          (acMarker ++ ' ' :: joinSep '\n' (items.map renderItem)) .story
          (by rw [hl]; exact hmapne)
      exact ⟨u, hu, by rw [hacc, hl]⟩
    · have hl := listField_issue_lines hne hgood
      obtain ⟨u, hu, hacc⟩ :=
        @parse_some_of_acceptance
          (stepsMarker ++ ' ' :: joinSep '\n' (items.map renderItem)) .issue
          (by rw [hl]; exact hmapne)
      exact ⟨u, hu, by rw [hacc, hl]⟩
  · intro r hr
    constructor
    · have hl := listField_story_no_dot hr
      obtain ⟨u, hu, hacc⟩ :=
        @parse_some_of_acceptance (acMarker ++ ' ' :: r) .story
          (by rw [hl]; simp)
      exact ⟨u, hu, by rw [hacc, hl]⟩
    · have hl := listField_issue_no_dot hr
      obtain ⟨u, hu, hacc⟩ :=
        @parse_some_of_acceptance (stepsMarker ++ ' ' :: r) .issue
          (by rw [hl]; simp)
      exact ⟨u, hu, by rw [hacc, hl]⟩

theorem numbered_list_extraction_amended_witness :
    ((∃ u, parseStructuredResponse
        (acMarker ++ ' ' :: joinSep '\n' ([(("1".data : Str), ("A".data : Str))].map renderItem))
          .story = some u ∧
      u.acceptance = some ([(("1".data : Str), ("A".data : Str))].map renderItem)) ∧
     (∃ u, parseStructuredResponse
        (stepsMarker ++ ' ' :: joinSep '\n' ([(("1".data : Str), ("A".data : Str))].map renderItem))
          .issue = some u ∧
      u.acceptance = some ([(("1".data : Str), ("A".data : Str))].map renderItem))) ∧
    ((∃ u, parseStructuredResponse (acMarker ++ ' ' :: ("no numbers".data)) .story =
        some u ∧
      u.acceptance = some [trimChars ("no numbers".data)]) ∧
     (∃ u, parseStructuredResponse (stepsMarker ++ ' ' :: ("no numbers".data)) .issue =
        some u ∧
      u.acceptance = some [trimChars ("no numbers".data)])) :=
  ⟨numbered_list_extraction_amended.1 [(("1".data : Str), ("A".data : Str))]
      (by simp) (by decide),
    numbered_list_extraction_amended.2.1 ("no numbers".data) (by decide)⟩

/-- Counterexample for C8, refuting both halves of the claim.  Extraction
half: `Title: A Steps: B` and its case variant `Title: A sTePs: B` differ
only in the casing of a `Steps:` occurrence, yet extraction returns
different results — the occurrence lies inside the captured title value,
which retains the input's casing verbatim.  Split half: lowering the case
of the `Title:` marker leaves extraction unchanged but changes the
chat/template split — the split regex has no case-insensitive flag, so the
lowercase marker is not recognized and the whole text stays in the chat
bubble. -/
theorem marker_case_counterexample :
    (lowerStr ("Title: A Steps: B".data) =
      lowerStr ("Title: A sTePs: B".data) ∧
     parseStructuredResponse ("Title: A Steps: B".data) .story ≠
      parseStructuredResponse ("Title: A sTePs: B".data) .story) ∧
    (lowerStr ("Hi\nTitle: Foo".data) = lowerStr ("Hi\ntitle: Foo".data) ∧
     parseStructuredResponse ("Hi\nTitle: Foo".data) .story =
      parseStructuredResponse ("Hi\ntitle: Foo".data) .story ∧
     chatResponseOf ("Hi\nTitle: Foo".data) = "Hi".data ∧
     chatResponseOf ("Hi\ntitle: Foo".data) = "Hi\ntitle: Foo".data ∧
     chatResponseOf ("Hi\nTitle: Foo".data) ≠
      chatResponseOf ("Hi\ntitle: Foo".data)) := by
  refine ⟨⟨by decide, by decide⟩, by decide, by decide, by decide, by decide,
    by decide⟩

/-- C8 (amended): marker recognition is case-insensitive — in particular,
replacing the leading `Title:` marker by any case variant leaves the whole
extraction result unchanged — but captured values keep the input's casing,
so a case-varied marker lying inside a captured value changes the result
verbatim (on `Title: A Steps: B` vs `Title: A sTePs: B` the title capture
is the differently-cased remainder, while recognition of the `Title:`
marker itself is unaffected); and the conversational/template split is
case-sensitive: it recognizes only the exact-case markers. -/
theorem marker_case_amended :
    (∀ (v s : Str) (ty : WorkItemType), lowerStr v = lowerStr titleMarker →
      parseStructuredResponse (v ++ s) ty =
        parseStructuredResponse (titleMarker ++ s) ty) ∧
    parseStructuredResponse ("Title: A Steps: B".data) .story =
      some ⟨some ("A Steps: B".data), none, none⟩ ∧
    parseStructuredResponse ("Title: A sTePs: B".data) .story =
      some ⟨some ("A sTePs: B".data), none, none⟩ ∧
    templateIdx ("Hi\ntitle: Foo".data) = none ∧
    templateIdx ("Hi\nTitle: Foo".data) = some 2 :=
  ⟨fun v s ty hv => parse_title_case_inv hv s ty, by decide, by decide,
    by decide, by decide⟩

theorem marker_case_amended_witness :
    parseStructuredResponse ("TITLE:".data ++ " Foo".data) .story =
      parseStructuredResponse (titleMarker ++ " Foo".data) .story :=
  marker_case_amended.1 ("TITLE:".data) (" Foo".data) .story (by decide)

/-- Counterexample for C10: on `Acceptance Criteria: ` (story) the list
marker is present and its captured value trims to the empty string, yet the
acceptance key is not omitted — the update carries the one-element list
holding the empty string. -/
theorem empty_capture_counterexample :
    occursCI ("Acceptance Criteria: ".data) acMarker = true ∧
    listCapture ("Acceptance Criteria: ".data) acMarker = some [] ∧
    parseStructuredResponse ("Acceptance Criteria: ".data) .story =
      some ⟨none, none, some [[]]⟩ := by
  refine ⟨by decide, by decide, by decide⟩

/-- C10 (amended): the extractor never returns an empty-string `title` or
`description` (a trim-empty capture omits those keys), it returns `null`
when no marker is recognized at all, and a `null` result leaves the draft
untouched; the `acceptance` key, however, may be present as a one-element
list holding the empty string when the list marker's remainder trims to
empty. -/
theorem empty_capture_amended :
    (∀ (c : Str) (ty : WorkItemType) (u : Updates),
      parseStructuredResponse c ty = some u →
        u.title ≠ some [] ∧ u.description ≠ some []) ∧
    (∀ (c : Str) (ty : WorkItemType), occursCI c titleMarker = false →
      occursCI c descMarker = false → occursCI c acMarker = false →
      occursCI c stepsMarker = false → parseStructuredResponse c ty = none) ∧
    (∀ w : WorkItem, applyExtraction w none = w) :=
  ⟨fun _ _ _ h => parse_fields_nonempty h,
    fun _ ty h1 h2 h3 h4 => parse_none_of_no_markers ty h1 h2 h3 h4,
    fun _ => rfl⟩

theorem empty_capture_amended_witness :
    (⟨some ("Foo".data), none, none⟩ : Updates).title ≠ some [] ∧
    (⟨some ("Foo".data), none, none⟩ : Updates).description ≠ some [] :=
  empty_capture_amended.1 ("Title: Foo".data) .story
    ⟨some ("Foo".data), none, none⟩ (by decide)

end WorkflowAI
